import Mathlib

/-! The Moggy playout policy (`playout/moggy.c`).

A shallow embedding of the tactical heuristics of `playout/moggy.c`: the ladder
reader `ladder_catches`, the per-group check `group_atari_check`, the sweep
`global_atari_check` and the two entry points `playout_moggy_choose` and
`playout_moggy_assess`.

Conventions of the embedding.

* C `int` values (coordinates, group ids, liberty counts, directions) are `Int`;
  the group list index and its length are `Nat`.
* The board is read only through the accessors of `board.h`.  That header is not
  part of the sources, so the accessors are the fields of the structure `board`
  and every theorem holds for whatever they compute.
* The only unbounded loop, `do { ... } while (1)` of `ladder_catches`, is run
  with a fuel argument counting loop iterations.  A function result is an
  `Option`: `none` means that the call does not return (fuel exhausted, or the
  `assert` of `group_atari_check` aborted).
* Diagnostic output under `PLDEBUGL` does not influence any result and is left
  out.
-/

set_option linter.unusedVariables false

namespace Moggy

/-! ## Data model -/

/-- Contents of a board cell, `enum stone`. -/
inductive stone where
  | S_NONE
  | S_BLACK
  | S_WHITE
  | S_OFFBOARD
  deriving DecidableEq, Repr

open stone

/-- Modelled from the spec: `stone.h` is not among the sources.  The colour
hostile to a colour: black and white are exchanged; the empty and the off-board
value have no opponent and are left as they are. -/
def stone_other : stone → stone
  | S_BLACK => S_WHITE
  | S_WHITE => S_BLACK
  | S_NONE => S_NONE
  | S_OFFBOARD => S_OFFBOARD

/-- Board coordinate, a C `int`. -/
abbrev coord_t := Int

/-- Group identifier: the coordinate of the representative stone. -/
abbrev group_t := Int

/-- Modelled from the spec: `move.h` is not among the sources.  The distinguished
coordinate meaning "no move", different from every grid location. -/
def pass : coord_t := -1

/-- Modelled from the spec: `move.h` is not among the sources.  Test for the
distinguished coordinate `pass`. -/
def is_pass (c : coord_t) : Bool := c == pass

/-- A move, `struct move`: a coordinate and the colour playing it. -/
structure move where
  coord : coord_t
  color : stone

/-- The part of `struct group` read by the policy: the liberty count and the
array of recorded liberties. -/
structure group_info where
  libs : Int
  lib : Nat → coord_t

/-- The policy state, `struct playout_policy`; only the debug level is read, and
only to decide about diagnostics. -/
structure playout_policy where
  debug_level : Int

/-- Modelled from the spec: `board.h` is not among the sources.  The read-only
board view consumed by the policy, one field for each accessor used in
`moggy.c`: the stone at a coordinate and at an (x, y) pair, the two coordinate
projections, the group at a coordinate and at an (x, y) pair, the group record,
the cells visited by `foreach_neighbor`, the escape validator, the group list
`c` with its length `clen`, and the last move played. -/
structure board where
  board_at : coord_t → stone
  board_atxy : Int → Int → stone
  coord_x : coord_t → Int
  coord_y : coord_t → Int
  group_at : coord_t → group_t
  group_atxy : Int → Int → group_t
  board_group_info : group_t → group_info
  neighbors : coord_t → List coord_t
  valid_escape_route : stone → coord_t → Bool
  clen : Nat
  c : Nat → group_t
  last_move : move

/-- The value of a C `float` as far as the policy produces it: the not-a-number
sentinel or a numeric weight. -/
inductive float_t where
  | NAN
  | val (q : ℚ)
  deriving DecidableEq

/-- Effect of a statement inside a function body: either a `return` was
executed, or control continues with the statement that follows. -/
inductive ctl (α : Type) where
  | ret (a : α)
  | next
  deriving DecidableEq

/-! ## The ladder reader -/

/-- Is this ladder breaker friendly for the one who catches the ladder. -/
def ladder_catcher (b : board) (x y : Int) (laddered : stone) : Bool :=
  let breaker := b.board_atxy x y
  breaker == stone_other laddered || breaker == S_OFFBOARD

/-- Horizontal ladder direction at the liberty (x, y): the `xd` of
`ladder_catches`. -/
def ladder_xd (b : board) (x y : Int) : Int :=
  if b.board_atxy (x + 1) y == S_NONE then 1
  else if b.board_atxy (x - 1) y == S_NONE then -1 else 0

/-- Vertical ladder direction at the liberty (x, y): the `yd` of
`ladder_catches`. -/
def ladder_yd (b : board) (x y : Int) : Int :=
  if b.board_atxy x (y + 1) == S_NONE then 1
  else if b.board_atxy x (y - 1) == S_NONE then -1 else 0

/-- The body of `ladder_check(xd1_, yd1_, xd2_, yd2_)` at the current cell
(x, y). -/
def ladder_check (b : board) (lcolor : stone) (x y xd1 yd1 xd2 yd2 : Int) : ctl Bool :=
  if b.board_atxy x y != S_NONE then
    if ladder_catcher b x y lcolor then ctl.ret true
    else if (b.board_group_info (b.group_atxy x y)).lib 0 > 0 then ctl.ret false
    else ctl.next
  else
    let s1 := b.board_atxy (x + xd1) (y + yd1)
    if s1 == lcolor then ctl.ret false
    else if s1 == stone_other lcolor then ctl.ret true
    else
      let s2 := b.board_atxy (x + xd2) (y + yd2)
      if s2 == lcolor then ctl.ret false
      else ctl.next

/-- The step `ladder_horiz` taken from (x, y): `x += xd`, then the check.  The
caller goes on with `x + xd`. -/
def ladder_horiz (b : board) (lcolor : stone) (xd yd x y : Int) : ctl Bool :=
  ladder_check b lcolor (x + xd) y xd 0 (-2 * xd) yd

/-- The step `ladder_vert` taken from (x, y): `y += yd`, then the check.  The
caller goes on with `y + yd`. -/
def ladder_vert (b : board) (lcolor : stone) (xd yd x y : Int) : ctl Bool :=
  ladder_check b lcolor x (y + yd) 0 yd xd (-2 * yd)

/-- The loop `do { ladder_vert; ladder_horiz; } while (1)`, entered at (x, y);
the fuel bounds the number of iterations. -/
def ladder_loop (b : board) (lcolor : stone) (xd yd : Int) : Nat → Int → Int → Option Bool
  | 0, _, _ => none
  | fuel + 1, x, y =>
    match ladder_vert b lcolor xd yd x y with
    | ctl.ret r => some r
    | ctl.next =>
      match ladder_horiz b lcolor xd yd x (y + yd) with
      | ctl.ret r => some r
      | ctl.next => ladder_loop b lcolor xd yd fuel (x + xd) (y + yd)

/-- The function `ladder_catches`. -/
def ladder_catches (fuel : Nat) (p : playout_policy) (b : board) (coord : coord_t)
    (laddered : group_t) : Option Bool :=
  let lcolor := b.board_at laddered
  let x := b.coord_x coord
  let y := b.coord_y coord
  let xd := ladder_xd b x y
  let yd := ladder_yd b x y
  if xd == 0 || yd == 0
      || !(xor (ladder_catcher b (x - xd) y lcolor) (ladder_catcher b x (y - yd) lcolor)) then
    some false
  else if ladder_catcher b (x - xd) y lcolor then
    match ladder_horiz b lcolor xd yd x y with
    | ctl.ret r => some r
    | ctl.next => ladder_loop b lcolor xd yd fuel (x + xd) y
  else
    ladder_loop b lcolor xd yd fuel x y

/-! ## Atari checks -/

/-- The function `group_atari_check`; `none` when the `assert` fails or the
ladder reader does not return. -/
def group_atari_check (fuel : Nat) (p : playout_policy) (b : board) (group : group_t) :
    Option coord_t :=
  let color := b.board_at group
  let lib := (b.board_group_info group).lib 0
  if b.board_at group == S_OFFBOARD then some pass
  else if b.board_at lib != S_NONE then none
  else if !b.valid_escape_route color lib then some pass
  else
    match ladder_catches fuel p b lib group with
    | none => none
    | some true => some pass
    | some false => some lib

/-- One `for` loop of `global_atari_check`, `n` iterations starting at index
`g`, with the list indices whose group it examines recorded in order: an index
is recorded where `group_atari_check` is called on its group. -/
def atari_scan_log (fuel : Nat) (p : playout_policy) (b : board) :
    Nat → Nat → Option (ctl coord_t) × List Nat
  | _, 0 => (some ctl.next, [])
  | g, n + 1 =>
    match group_atari_check fuel p b (b.c g) with
    | none => (none, [g])
    | some c =>
      if !is_pass c then (some (ctl.ret c), [g])
      else
        let rest := atari_scan_log fuel p b (g + 1) n
        (rest.1, g :: rest.2)

/-- The body of `global_atari_check`, with the list indices whose group it
examines recorded in order.  The value drawn by `fast_random(b->clen)` is the
argument `g_base`. -/
def global_atari_check_log (fuel : Nat) (p : playout_policy) (b : board) (g_base : Nat) :
    Option coord_t × List Nat :=
  if b.clen == 0 then (some pass, [])
  else
    let first := atari_scan_log fuel p b g_base (b.clen - g_base)
    match first.1 with
    | none => (none, first.2)
    | some (ctl.ret c) => (some c, first.2)
    | some ctl.next =>
      let second := atari_scan_log fuel p b 0 g_base
      match second.1 with
      | none => (none, first.2 ++ second.2)
      | some (ctl.ret c) => (some c, first.2 ++ second.2)
      | some ctl.next => (some pass, first.2 ++ second.2)

/-- One `for` loop of `global_atari_check`: what the loop above does to the
control flow. -/
def atari_scan (fuel : Nat) (p : playout_policy) (b : board) (g n : Nat) : Option (ctl coord_t) :=
  (atari_scan_log fuel p b g n).1

/-- The function `global_atari_check`: the value of the run recorded by
`global_atari_check_log`. -/
def global_atari_check (fuel : Nat) (p : playout_policy) (b : board) (g_base : Nat) :
    Option coord_t :=
  (global_atari_check_log fuel p b g_base).1

/-! ## Entry points -/

/-- The global checks of `playout_moggy_choose`. -/
def choose_global (fuel : Nat) (p : playout_policy) (b : board) (g_base : Nat) : Option coord_t :=
  match global_atari_check fuel p b g_base with
  | none => none
  | some c => if !is_pass c then some c else some pass

/-- The function `playout_moggy_choose`; the branch on the last move has an
empty body. -/
def playout_moggy_choose (fuel : Nat) (p : playout_policy) (b : board) (our_real_color : stone)
    (g_base : Nat) : Option coord_t :=
  if !is_pass b.last_move.coord then choose_global fuel p b g_base
  else choose_global fuel p b g_base

/-- The `foreach_neighbor` loop of `playout_moggy_assess` over the neighbour
cells still to visit. -/
def assess_neighbors (fuel : Nat) (p : playout_policy) (b : board) (m : move) :
    List coord_t → Option (ctl float_t)
  | [] => some ctl.next
  | c :: cs =>
    if (b.board_group_info (b.group_at c)).libs == 1 then
      match group_atari_check fuel p b (b.group_at c) with
      | none => none
      | some r =>
        if r == m.coord then some (ctl.ret (float_t.val 1))
        else assess_neighbors fuel p b m cs
    else assess_neighbors fuel p b m cs

/-- The function `playout_moggy_assess`. -/
def playout_moggy_assess (fuel : Nat) (p : playout_policy) (b : board) (m : move) :
    Option float_t :=
  if is_pass m.coord then some float_t.NAN
  else
    match assess_neighbors fuel p b m (b.neighbors m.coord) with
    | none => none
    | some (ctl.ret w) => some w
    | some ctl.next => some float_t.NAN

/-! ## Instrumented copies

The same control flow as the ladder reader above, recording in addition what
the claims about the course of a run speak of: the single-cell steps of the
simulation.  (The sweep records the list indices it visits in its own
definition, `global_atari_check_log`.) -/

/-- A single-cell step of the ladder simulation: whether it is a horizontal one,
and the cell it lands on. -/
structure lstep where
  horiz : Bool
  x : Int
  y : Int
  deriving DecidableEq, Repr

/-- The loop of `ladder_catches` together with the steps it performs, in order. -/
def ladder_loop_log (b : board) (lcolor : stone) (xd yd : Int) :
    Nat → Int → Int → Option Bool × List lstep
  | 0, _, _ => (none, [])
  | fuel + 1, x, y =>
    match ladder_vert b lcolor xd yd x y with
    | ctl.ret r => (some r, [⟨false, x, y + yd⟩])
    | ctl.next =>
      match ladder_horiz b lcolor xd yd x (y + yd) with
      | ctl.ret r => (some r, [⟨false, x, y + yd⟩, ⟨true, x + xd, y + yd⟩])
      | ctl.next =>
        let rest := ladder_loop_log b lcolor xd yd fuel (x + xd) (y + yd)
        (rest.1, ⟨false, x, y + yd⟩ :: ⟨true, x + xd, y + yd⟩ :: rest.2)

/-- The function `ladder_catches` together with the steps it performs, in
order. -/
def ladder_catches_log (fuel : Nat) (p : playout_policy) (b : board) (coord : coord_t)
    (laddered : group_t) : Option Bool × List lstep :=
  let lcolor := b.board_at laddered
  let x := b.coord_x coord
  let y := b.coord_y coord
  let xd := ladder_xd b x y
  let yd := ladder_yd b x y
  if xd == 0 || yd == 0
      || !(xor (ladder_catcher b (x - xd) y lcolor) (ladder_catcher b x (y - yd) lcolor)) then
    (some false, [])
  else if ladder_catcher b (x - xd) y lcolor then
    match ladder_horiz b lcolor xd yd x y with
    | ctl.ret r => (some r, [⟨true, x + xd, y⟩])
    | ctl.next =>
      let rest := ladder_loop_log b lcolor xd yd fuel (x + xd) y
      (rest.1, ⟨true, x + xd, y⟩ :: rest.2)
  else
    ladder_loop_log b lcolor xd yd fuel x y

/-! ## Predicates used in the statements -/

/-- The board of side `S`, border included, has off-board cells all along its
border. -/
def bordered (b : board) (S : Nat) : Prop :=
  ∀ x y : Int, 0 ≤ x → x < S → 0 ≤ y → y < S →
    (x = 0 ∨ x = S - 1 ∨ y = 0 ∨ y = S - 1) → b.board_atxy x y = S_OFFBOARD

/-- The coordinate lies strictly inside the border of a board of side `S`. -/
def on_board (b : board) (S : Nat) (coord : coord_t) : Prop :=
  1 ≤ b.coord_x coord ∧ b.coord_x coord + 2 ≤ S ∧ 1 ≤ b.coord_y coord ∧ b.coord_y coord + 2 ≤ S

/-- The index examined at position `k` of the sweep started at `g_base`:
`g_base, g_base + 1, ..., clen - 1, 0, 1, ..., g_base - 1`. -/
def rot (clen g_base k : Nat) : Nat := (g_base + k) % clen

/-! ## Concrete boards -/

/-- Cell contents of a grid of side `S` whose border is off-board and whose
interior is empty except for the listed stones. -/
def grid_cell (S : Int) (stones : List (Int × Int × stone)) (x y : Int) : stone :=
  if x ≤ 0 ∨ S - 1 ≤ x ∨ y ≤ 0 ∨ S - 1 ≤ y then S_OFFBOARD
  else
    match stones.find? (fun e => e.1 == x && e.2.1 == y) with
    | some e => e.2.2
    | none => S_NONE

/-- A board view over a grid of side `S` stored row by row, the coordinate of
(x, y) being `x + S * y`; `grp` gives the group at a coordinate and `info` the
record of a group.  The boards below record the groups whose checks are run,
every other coordinate reading as group 0. -/
def grid_board (S : Int) (stones : List (Int × Int × stone)) (grp : coord_t → group_t)
    (info : group_t → group_info) (valid : stone → coord_t → Bool) (gs : List group_t) : board where
  board_at := fun c => grid_cell S stones (c % S) (c / S)
  board_atxy := grid_cell S stones
  coord_x := fun c => c % S
  coord_y := fun c => c / S
  group_at := grp
  group_atxy := fun x y => grp (x + S * y)
  board_group_info := info
  neighbors := fun c => [c - S, c - 1, c + 1, c + S]
  valid_escape_route := valid
  clen := gs.length
  c := fun i => gs.getD i 0
  last_move := ⟨pass, S_NONE⟩

/-- A group record with the given liberty count and first liberty. -/
def info_of (libs : Int) (lib0 : coord_t) : group_info := ⟨libs, fun _ => lib0⟩

/-- Side 7 (a 5x5 playable area): a black stone at (1,1) whose only liberty is
(1,2), a white stone at (2,1); the rest is empty.
```
y=5  . . . . .
y=4  . . . . .
y=3  . . . . .
y=2  c . . . .
y=1  X O . . .
```
-/
def corner_board : board :=
  grid_board 7 [(1, 1, S_BLACK), (2, 1, S_WHITE)] (fun c => if c = 8 ∨ c = 9 then c else 0)
    (fun g => if g = 8 then info_of 1 15 else if g = 9 then info_of 2 10 else info_of 0 0)
    (fun _ _ => true) [8, 9]

/-- The board with the liberty count of group `g` replaced by `n`, everything
else unchanged. -/
def set_libs (b : board) (g : group_t) (n : Int) : board :=
  { b with
    board_group_info := fun h =>
      if h = g then { b.board_group_info h with libs := n } else b.board_group_info h }

/-- Side 7: a single black stone in the centre, at (3,3), with its four
liberties; the first recorded one is (3,2).
```
y=4  . . . . .
y=3  . . X . .
y=2  . . c . .
```
-/
def lone_board : board :=
  grid_board 7 [(3, 3, S_BLACK)] (fun c => if c = 24 then c else 0)
    (fun g => if g = 24 then info_of 4 17 else info_of 0 0)
    (fun _ _ => true) [24]

/-- Side 7: two black stones at (2,3) and (4,3), each with the single liberty
(3,3) between them, each otherwise surrounded by white stones.
```
y=4  . O . O .
y=3  O X c X O
y=2  . O . O .
```
-/
def twin_board : board :=
  grid_board 7
    [(2, 3, S_BLACK), (4, 3, S_BLACK), (1, 3, S_WHITE), (2, 2, S_WHITE), (2, 4, S_WHITE),
      (5, 3, S_WHITE), (4, 2, S_WHITE), (4, 4, S_WHITE)]
    (fun c => if c = 23 ∨ c = 25 then c else 0)
    (fun g => if g = 23 ∨ g = 25 then info_of 1 24 else info_of 0 0)
    (fun _ _ => true) [23, 25]

/-- Side 7: a black stone at (2,3) whose only liberty is (3,3), with white
stones on its three other sides.
```
y=4  . O . . .
y=3  O X c . .
y=2  . O . . .
```
-/
def single_board : board :=
  grid_board 7 [(2, 3, S_BLACK), (1, 3, S_WHITE), (2, 2, S_WHITE), (2, 4, S_WHITE)]
    (fun c => if c = 23 then c else 0)
    (fun g => if g = 23 then info_of 1 24 else info_of 0 0)
    (fun _ _ => true) [23]

/-! ## Steps and cells read -/

/-- The check a step of the ladder simulation makes on the cell it has landed
on: `ladder_check` with the offsets of `ladder_horiz`, or of `ladder_vert`. -/
def step_check (b : board) (lcolor : stone) (xd yd : Int) (s : lstep) : ctl Bool :=
  if s.horiz then ladder_check b lcolor s.x s.y xd 0 (-2 * xd) yd
  else ladder_check b lcolor s.x s.y 0 yd xd (-2 * yd)

/-- The first indirect-breaker cell of a step, the one read into `s1`: the cell
ahead in the direction of the step. -/
def step_ahead (xd yd : Int) (s : lstep) : Int × Int :=
  if s.horiz then (s.x + xd, s.y) else (s.x, s.y + yd)

/-- The second indirect-breaker cell of a step, the one read into `s2`: two
cells back along the axis of the step and one cell on along the other axis. -/
def step_behind (xd yd : Int) (s : lstep) : Int × Int :=
  if s.horiz then (s.x - 2 * xd, s.y + yd) else (s.x + xd, s.y - 2 * yd)

/-- The cells read by the computation of `xd`, in order: the second probe is
made only when the first cell is not empty. -/
def ladder_xd_reads (b : board) (x y : Int) : List (Int × Int) :=
  if b.board_atxy (x + 1) y == S_NONE then [(x + 1, y)] else [(x + 1, y), (x - 1, y)]

/-- The cells read by the computation of `yd`, in order. -/
def ladder_yd_reads (b : board) (x y : Int) : List (Int × Int) :=
  if b.board_atxy x (y + 1) == S_NONE then [(x, y + 1)] else [(x, y + 1), (x, y - 1)]

/-- The cells read by `ladder_check` at (x, y), in order: the cell itself, then
either the cell again for `ladder_catcher` and for `group_atxy`, or the cells of
`s1` and `s2`. -/
def ladder_check_reads (b : board) (lcolor : stone) (x y xd1 yd1 xd2 yd2 : Int) :
    List (Int × Int) :=
  if b.board_atxy x y != S_NONE then
    if ladder_catcher b x y lcolor then [(x, y), (x, y)]
    else [(x, y), (x, y), (x, y)]
  else
    let s1 := b.board_atxy (x + xd1) (y + yd1)
    if s1 == lcolor then [(x, y), (x + xd1, y + yd1)]
    else if s1 == stone_other lcolor then [(x, y), (x + xd1, y + yd1)]
    else [(x, y), (x + xd1, y + yd1), (x + xd2, y + yd2)]

/-- The loop of `ladder_catches` together with the cells it reads, in order. -/
def ladder_loop_reads (b : board) (lcolor : stone) (xd yd : Int) :
    Nat → Int → Int → Option Bool × List (Int × Int)
  | 0, _, _ => (none, [])
  | fuel + 1, x, y =>
    match ladder_vert b lcolor xd yd x y with
    | ctl.ret r => (some r, ladder_check_reads b lcolor x (y + yd) 0 yd xd (-2 * yd))
    | ctl.next =>
      match ladder_horiz b lcolor xd yd x (y + yd) with
      | ctl.ret r =>
        (some r, ladder_check_reads b lcolor x (y + yd) 0 yd xd (-2 * yd)
          ++ ladder_check_reads b lcolor (x + xd) (y + yd) xd 0 (-2 * xd) yd)
      | ctl.next =>
        let rest := ladder_loop_reads b lcolor xd yd fuel (x + xd) (y + yd)
        (rest.1, ladder_check_reads b lcolor x (y + yd) 0 yd xd (-2 * yd)
          ++ (ladder_check_reads b lcolor (x + xd) (y + yd) xd 0 (-2 * xd) yd ++ rest.2))

/-- The function `ladder_catches` together with the cells it reads through
`board_atxy` and `group_atxy`, in order.  The two catcher cells are read only
when both directions are non-zero, and the first of them once more before the
stepping starts. -/
def ladder_catches_reads (fuel : Nat) (p : playout_policy) (b : board) (coord : coord_t)
    (laddered : group_t) : Option Bool × List (Int × Int) :=
  let lcolor := b.board_at laddered
  let x := b.coord_x coord
  let y := b.coord_y coord
  let xd := ladder_xd b x y
  let yd := ladder_yd b x y
  let dirs := ladder_xd_reads b x y ++ ladder_yd_reads b x y
  if xd == 0 || yd == 0 then (some false, dirs)
  else if !(xor (ladder_catcher b (x - xd) y lcolor) (ladder_catcher b x (y - yd) lcolor)) then
    (some false, dirs ++ [(x - xd, y), (x, y - yd)])
  else if ladder_catcher b (x - xd) y lcolor then
    match ladder_horiz b lcolor xd yd x y with
    | ctl.ret r =>
      (some r, dirs ++ ([(x - xd, y), (x, y - yd), (x - xd, y)]
        ++ ladder_check_reads b lcolor (x + xd) y xd 0 (-2 * xd) yd))
    | ctl.next =>
      let rest := ladder_loop_reads b lcolor xd yd fuel (x + xd) y
      (rest.1, dirs ++ ([(x - xd, y), (x, y - yd), (x - xd, y)]
        ++ (ladder_check_reads b lcolor (x + xd) y xd 0 (-2 * xd) yd ++ rest.2)))
  else
    let rest := ladder_loop_reads b lcolor xd yd fuel x y
    (rest.1, dirs ++ ([(x - xd, y), (x, y - yd), (x - xd, y)] ++ rest.2))

/-- The cell has both coordinates within `[0, S - 1]`: it lies in the grid of
side `S`, border included. -/
def in_grid (S : Nat) (c : Int × Int) : Prop :=
  0 ≤ c.1 ∧ c.1 ≤ (S : Int) - 1 ∧ 0 ≤ c.2 ∧ c.2 ≤ (S : Int) - 1

/-! ## More concrete boards -/

/-- Side 7, the position described for the capture test: the liberty (3,3), the
laddered black stone at (4,3) east of it, a white stone at (2,3) west of it and
a white stone on the cell (3, `north`) above or below it; the rest is empty.
```
y=4  . . O . .
y=3  . O c X .
y=2  . . . . .
```
(drawn for `north = 4`). -/
def pincer_board (north : Int) : board :=
  grid_board 7 [(4, 3, S_BLACK), (3, north, S_WHITE), (2, 3, S_WHITE)]
    (fun c => if c = 25 then c else 0)
    (fun g => if g = 25 then info_of 4 24 else info_of 0 0)
    (fun _ _ => true) [25]

/-- Side 7, the "supported" position of the comment in `ladder_catches`: the
laddered black stone at (4,3) with the single liberty (3,3) west of it, white
stones north, east and south of it, and a white stone south of the liberty.
```
y=5  . . . . .
y=4  . . . O .
y=3  . . c X O
y=2  . . O O .
y=1  . . . . .
```
-/
def support_board : board :=
  grid_board 7 [(4, 3, S_BLACK), (4, 4, S_WHITE), (5, 3, S_WHITE), (4, 2, S_WHITE),
      (3, 2, S_WHITE)]
    (fun c => if c = 25 then c else 0)
    (fun g => if g = 25 then info_of 1 24 else info_of 0 0)
    (fun _ _ => true) [25]

/-- Side 7: the corner board with one more black stone at (3,3), on the path of
the ladder, recorded with four liberties of which (3,2) is the first.
```
y=5  . . . . .
y=4  . . . . .
y=3  . . X . .
y=2  c . . . .
y=1  X O . . .
```
-/
def breaker_board : board :=
  grid_board 7 [(1, 1, S_BLACK), (2, 1, S_WHITE), (3, 3, S_BLACK)]
    (fun c => if c = 8 ∨ c = 9 ∨ c = 24 then c else 0)
    (fun g => if g = 8 then info_of 1 15 else if g = 9 then info_of 2 10
      else if g = 24 then info_of 4 17 else info_of 0 0)
    (fun _ _ => true) [8, 9, 24]

/-- The record of the group lets `group_atari_check` run on a board of side
`S`: the representative is off-board, or the first recorded liberty is an empty
cell strictly inside the border. -/
def checkable (b : board) (S : Nat) (g : group_t) : Prop :=
  b.board_at g = S_OFFBOARD ∨
    (b.board_at ((b.board_group_info g).lib 0) = S_NONE ∧
      on_board b S ((b.board_group_info g).lib 0))

end Moggy

/-! # Theorems -/

namespace Moggy
open stone

/-! ## The ladder reader -/

theorem ladder_check_offboard (b : board) (lcolor : stone) (x y xd1 yd1 xd2 yd2 : Int)
    (h : b.board_atxy x y = S_OFFBOARD) :
    ladder_check b lcolor x y xd1 yd1 xd2 yd2 = ctl.ret true := by
  simp [ladder_check, ladder_catcher, h]

theorem ladder_loop_log_fst (b : board) (lcolor : stone) (xd yd : Int) :
    ∀ (fuel : Nat) (x y : Int),
      (ladder_loop_log b lcolor xd yd fuel x y).1 = ladder_loop b lcolor xd yd fuel x y := by
  intro fuel
  induction fuel with
  | zero => intro x y; rfl
  | succ n ih =>
    intro x y
    simp only [ladder_loop_log, ladder_loop]
    cases ladder_vert b lcolor xd yd x y with
    | ret r => rfl
    | next =>
      cases ladder_horiz b lcolor xd yd x (y + yd) with
      | ret r => rfl
      | next => exact ih _ _

theorem ladder_catches_log_fst (fuel : Nat) (p : playout_policy) (b : board) (coord : coord_t)
    (laddered : group_t) :
    (ladder_catches_log fuel p b coord laddered).1 = ladder_catches fuel p b coord laddered := by
  simp only [ladder_catches_log, ladder_catches]
  split
  · rfl
  · split
    · cases ladder_horiz b (b.board_at laddered) (ladder_xd b (b.coord_x coord) (b.coord_y coord))
        (ladder_yd b (b.coord_x coord) (b.coord_y coord)) (b.coord_x coord) (b.coord_y coord) with
      | ret r => rfl
      | next => exact ladder_loop_log_fst _ _ _ _ _ _ _
    · exact ladder_loop_log_fst _ _ _ _ _ _ _

/-- In a run of the loop, a step that lands on an off-board cell is the last one
and the loop returns true there. -/
theorem ladder_loop_log_offboard (b : board) (lcolor : stone) (xd yd : Int) :
    ∀ (fuel : Nat) (x y : Int) (s : lstep),
      s ∈ (ladder_loop_log b lcolor xd yd fuel x y).2 → b.board_atxy s.x s.y = S_OFFBOARD →
      (ladder_loop_log b lcolor xd yd fuel x y).2.getLast? = some s ∧
        (ladder_loop_log b lcolor xd yd fuel x y).1 = some true := by
  intro fuel
  induction fuel with
  | zero => intro x y s hs; simp [ladder_loop_log] at hs
  | succ n ih =>
    intro x y s hs hoff
    simp only [ladder_loop_log] at hs ⊢
    cases hv : ladder_vert b lcolor xd yd x y with
    | ret r =>
      simp only [hv, List.mem_singleton] at hs ⊢
      subst hs
      have := ladder_check_offboard b lcolor x (y + yd) 0 yd xd (-2 * yd) hoff
      simp only [ladder_vert, this, ctl.ret.injEq] at hv
      simp [hv]
    | next =>
      simp only [hv] at hs ⊢
      cases hh : ladder_horiz b lcolor xd yd x (y + yd) with
      | ret r =>
        simp only [hh, List.mem_cons, List.mem_singleton, List.not_mem_nil, or_false] at hs ⊢
        rcases hs with hs | hs
        · subst hs
          have := ladder_check_offboard b lcolor x (y + yd) 0 yd xd (-2 * yd) hoff
          rw [ladder_vert, this] at hv
          cases hv
        · subst hs
          have := ladder_check_offboard b lcolor (x + xd) (y + yd) xd 0 (-2 * xd) yd hoff
          simp only [ladder_horiz, this, ctl.ret.injEq] at hh
          simp [hh]
      | next =>
        simp only [hh, List.mem_cons] at hs ⊢
        rcases hs with hs | hs | hs
        · subst hs
          have := ladder_check_offboard b lcolor x (y + yd) 0 yd xd (-2 * yd) hoff
          rw [ladder_vert, this] at hv
          cases hv
        · subst hs
          have := ladder_check_offboard b lcolor (x + xd) (y + yd) xd 0 (-2 * xd) yd hoff
          rw [ladder_horiz, this] at hh
          cases hh
        · obtain ⟨h1, h2⟩ := ih _ _ s hs hoff
          refine ⟨?_, h2⟩
          cases hr : (ladder_loop_log b lcolor xd yd n (x + xd) (y + yd)).2 with
          | nil => simp [hr] at hs
          | cons a l =>
            rw [hr] at h1
            simp only [List.getLast?_cons_cons]
            exact h1

theorem ladder_xd_cases (b : board) (x y : Int) :
    (ladder_xd b x y = 1 ∧ b.board_atxy (x + 1) y = S_NONE) ∨
      (ladder_xd b x y = -1 ∧ b.board_atxy (x - 1) y = S_NONE) ∨ ladder_xd b x y = 0 := by
  unfold ladder_xd
  by_cases h1 : b.board_atxy (x + 1) y = S_NONE
  · simp [h1]
  · by_cases h2 : b.board_atxy (x - 1) y = S_NONE
    · simp [h1, h2]
    · simp [h1, h2]

theorem ladder_yd_cases (b : board) (x y : Int) :
    (ladder_yd b x y = 1 ∧ b.board_atxy x (y + 1) = S_NONE) ∨
      (ladder_yd b x y = -1 ∧ b.board_atxy x (y - 1) = S_NONE) ∨ ladder_yd b x y = 0 := by
  unfold ladder_yd
  by_cases h1 : b.board_atxy x (y + 1) = S_NONE
  · simp [h1]
  · by_cases h2 : b.board_atxy x (y - 1) = S_NONE
    · simp [h1, h2]
    · simp [h1, h2]

/-- On a bordered board the loop entered strictly inside the border returns, and
the result and the steps are the same for every sufficient fuel. -/
theorem ladder_loop_log_bordered (b : board) (S : Nat) (hb : bordered b S) (lcolor : stone)
    (xd yd : Int) (hxd : xd = 1 ∨ xd = -1) :
    ∀ (n : Nat) (x y : Int), 1 ≤ x → x + 2 ≤ S → 1 ≤ y → y + 2 ≤ S →
      ((yd = 1 ∧ (S : Int) - 1 - y ≤ n) ∨ (yd = -1 ∧ y ≤ n)) →
      ∃ r tr, (∀ fuel, n ≤ fuel → ladder_loop_log b lcolor xd yd fuel x y = (some r, tr)) ∧
        tr.length ≤ 2 * n := by
  intro n
  induction n with
  | zero => intro x y h1 h2 h3 h4 h5; omega
  | succ n ih =>
    intro x y h1 h2 h3 h4 h5
    by_cases hedge : y + yd = 0 ∨ y + yd = (S : Int) - 1
    · have hoff : b.board_atxy x (y + yd) = S_OFFBOARD :=
        hb x (y + yd) (by omega) (by omega) (by omega) (by omega) (by omega)
      have hv := ladder_check_offboard b lcolor x (y + yd) 0 yd xd (-2 * yd) hoff
      refine ⟨true, [⟨false, x, y + yd⟩], ?_, by simp only [List.length_singleton]; omega⟩
      intro fuel hf
      obtain ⟨f, rfl⟩ : ∃ f, fuel = f + 1 := ⟨fuel - 1, by omega⟩
      simp only [ladder_loop_log, ladder_vert, hv]
    · cases hv : ladder_vert b lcolor xd yd x y with
      | ret r =>
        refine ⟨r, [⟨false, x, y + yd⟩], ?_, by simp only [List.length_singleton]; omega⟩
        intro fuel hf
        obtain ⟨f, rfl⟩ : ∃ f, fuel = f + 1 := ⟨fuel - 1, by omega⟩
        simp only [ladder_loop_log, hv]
      | next =>
        by_cases hedge2 : x + xd = 0 ∨ x + xd = (S : Int) - 1
        · have hoff : b.board_atxy (x + xd) (y + yd) = S_OFFBOARD :=
            hb (x + xd) (y + yd) (by omega) (by omega) (by omega) (by omega) (by omega)
          have hh := ladder_check_offboard b lcolor (x + xd) (y + yd) xd 0 (-2 * xd) yd hoff
          refine ⟨true, [⟨false, x, y + yd⟩, ⟨true, x + xd, y + yd⟩], ?_,
            by simp only [List.length_cons, List.length_nil]; omega⟩
          intro fuel hf
          obtain ⟨f, rfl⟩ : ∃ f, fuel = f + 1 := ⟨fuel - 1, by omega⟩
          simp only [ladder_loop_log, hv, ladder_horiz, hh]
        · cases hh : ladder_horiz b lcolor xd yd x (y + yd) with
          | ret r =>
            refine ⟨r, [⟨false, x, y + yd⟩, ⟨true, x + xd, y + yd⟩], ?_,
              by simp only [List.length_cons, List.length_nil]; omega⟩
            intro fuel hf
            obtain ⟨f, rfl⟩ : ∃ f, fuel = f + 1 := ⟨fuel - 1, by omega⟩
            simp only [ladder_loop_log, hv, hh]
          | next =>
            obtain ⟨r, tr, hrun, hlen⟩ := ih (x + xd) (y + yd) (by omega) (by omega) (by omega)
              (by omega) (by omega)
            refine ⟨r, ⟨false, x, y + yd⟩ :: ⟨true, x + xd, y + yd⟩ :: tr, ?_, ?_⟩
            · intro fuel hf
              obtain ⟨f, rfl⟩ : ∃ f, fuel = f + 1 := ⟨fuel - 1, by omega⟩
              simp only [ladder_loop_log, hv, hh, hrun f (by omega)]
            · simp only [List.length_cons]
              omega

/-- On a bordered board, for a liberty strictly inside the border, the ladder
reader returns; result and steps are the same for every fuel of at least
`S - 2`, and there are at most `2 * S - 3` steps. -/
theorem ladder_catches_log_bordered (b : board) (S : Nat) (hb : bordered b S)
    (p : playout_policy) (coord : coord_t) (laddered : group_t) (hc : on_board b S coord) :
    ∃ r tr, (∀ fuel, S - 2 ≤ fuel → ladder_catches_log fuel p b coord laddered = (some r, tr)) ∧
      tr.length + 3 ≤ 2 * S := by
  obtain ⟨hx1, hx2, hy1, hy2⟩ := hc
  simp only [ladder_catches_log]
  split
  · exact ⟨false, [], fun _ _ => rfl, by simp; omega⟩
  · rename_i hgo
    simp only [Bool.or_eq_true, beq_iff_eq, not_or] at hgo
    obtain ⟨⟨hxd0, hyd0⟩, -⟩ := hgo
    have hxd : (ladder_xd b (b.coord_x coord) (b.coord_y coord) = 1 ∧
          b.board_atxy (b.coord_x coord + 1) (b.coord_y coord) = S_NONE) ∨
        (ladder_xd b (b.coord_x coord) (b.coord_y coord) = -1 ∧
          b.board_atxy (b.coord_x coord - 1) (b.coord_y coord) = S_NONE) := by
      rcases ladder_xd_cases b (b.coord_x coord) (b.coord_y coord) with h | h | h
      · exact Or.inl h
      · exact Or.inr h
      · exact absurd h hxd0
    have hyd : ladder_yd b (b.coord_x coord) (b.coord_y coord) = 1 ∨
        ladder_yd b (b.coord_x coord) (b.coord_y coord) = -1 := by
      rcases ladder_yd_cases b (b.coord_x coord) (b.coord_y coord) with h | h | h
      · exact Or.inl h.1
      · exact Or.inr h.1
      · exact absurd h hyd0
    generalize ladder_xd b (b.coord_x coord) (b.coord_y coord) = xd at hxd hxd0 ⊢
    generalize ladder_yd b (b.coord_x coord) (b.coord_y coord) = yd at hyd hyd0 ⊢
    generalize b.coord_x coord = x at hx1 hx2 hxd ⊢
    generalize b.coord_y coord = y at hy1 hy2 hxd ⊢
    have hxd2 : xd = 1 ∨ xd = -1 := hxd.imp And.left And.left
    split
    · cases hh : ladder_horiz b (b.board_at laddered) xd yd x y with
      | ret r => exact ⟨r, [⟨true, x + xd, y⟩], fun _ _ => rfl, by simp; omega⟩
      | next =>
        have hin : 1 ≤ x + xd ∧ x + xd + 2 ≤ S := by
          rcases hxd with ⟨h, he⟩ | ⟨h, he⟩
          · subst h
            by_contra hcon
            have := hb (x + 1) y (by omega) (by omega) (by omega) (by omega) (by omega)
            rw [he] at this
            cases this
          · subst h
            by_contra hcon
            have := hb (x - 1) y (by omega) (by omega) (by omega) (by omega) (by omega)
            rw [he] at this
            cases this
        obtain ⟨r, tr, hrun, hlen⟩ := ladder_loop_log_bordered b S hb (b.board_at laddered) xd yd
          hxd2 (S - 2) (x + xd) y hin.1 hin.2 hy1 hy2 (by omega)
        refine ⟨r, ⟨true, x + xd, y⟩ :: tr, ?_, by simp only [List.length_cons]; omega⟩
        intro fuel hf
        simp only [hrun fuel hf]
    · obtain ⟨r, tr, hrun, hlen⟩ := ladder_loop_log_bordered b S hb (b.board_at laddered) xd yd
        hxd2 (S - 2) x y hx1 hx2 hy1 hy2 (by omega)
      exact ⟨r, tr, hrun, by omega⟩

/-! ## Which parts of the board the checks read -/

theorem ladder_check_congr (b c : board) (hxy : c.board_atxy = b.board_atxy)
    (hg : c.group_atxy = b.group_atxy)
    (hl : ∀ g, (c.board_group_info g).lib = (b.board_group_info g).lib)
    (lcolor : stone) (x y xd1 yd1 xd2 yd2 : Int) :
    ladder_check c lcolor x y xd1 yd1 xd2 yd2 = ladder_check b lcolor x y xd1 yd1 xd2 yd2 := by
  simp only [ladder_check, ladder_catcher, hxy, hg, hl]

theorem ladder_loop_congr (b c : board) (hxy : c.board_atxy = b.board_atxy)
    (hg : c.group_atxy = b.group_atxy)
    (hl : ∀ g, (c.board_group_info g).lib = (b.board_group_info g).lib)
    (lcolor : stone) (xd yd : Int) :
    ∀ (fuel : Nat) (x y : Int),
      ladder_loop c lcolor xd yd fuel x y = ladder_loop b lcolor xd yd fuel x y := by
  intro fuel
  induction fuel with
  | zero => intro x y; rfl
  | succ n ih =>
    intro x y
    simp only [ladder_loop, ladder_vert, ladder_horiz, ladder_check_congr b c hxy hg hl, ih]

theorem ladder_catches_congr (b c : board) (hat : c.board_at = b.board_at)
    (hxy : c.board_atxy = b.board_atxy) (hcx : c.coord_x = b.coord_x)
    (hcy : c.coord_y = b.coord_y) (hg : c.group_atxy = b.group_atxy)
    (hl : ∀ g, (c.board_group_info g).lib = (b.board_group_info g).lib)
    (fuel : Nat) (p : playout_policy) (coord : coord_t) (laddered : group_t) :
    ladder_catches fuel p c coord laddered = ladder_catches fuel p b coord laddered := by
  simp only [ladder_catches, ladder_xd, ladder_yd, ladder_catcher, ladder_horiz,
    ladder_check_congr b c hxy hg hl, ladder_loop_congr b c hxy hg hl, hat, hxy, hcx, hcy]

theorem group_atari_check_congr (b c : board) (hat : c.board_at = b.board_at)
    (hxy : c.board_atxy = b.board_atxy) (hcx : c.coord_x = b.coord_x)
    (hcy : c.coord_y = b.coord_y) (hg : c.group_atxy = b.group_atxy)
    (hl : ∀ g, (c.board_group_info g).lib = (b.board_group_info g).lib)
    (hv : c.valid_escape_route = b.valid_escape_route)
    (fuel : Nat) (p : playout_policy) (group : group_t) :
    group_atari_check fuel p c group = group_atari_check fuel p b group := by
  simp only [group_atari_check, ladder_catches_congr b c hat hxy hcx hcy hg hl, hat, hl, hv]

theorem set_libs_lib (b : board) (g : group_t) (n : Int) (h : group_t) :
    ((set_libs b g n).board_group_info h).lib = (b.board_group_info h).lib := by
  simp only [set_libs]
  split <;> rfl

theorem group_atari_check_set_libs (fuel : Nat) (p : playout_policy) (b : board) (g : group_t)
    (n : Int) (group : group_t) :
    group_atari_check fuel p (set_libs b g n) group = group_atari_check fuel p b group :=
  group_atari_check_congr b (set_libs b g n) rfl rfl rfl rfl rfl (set_libs_lib b g n) rfl fuel p
    group

theorem atari_scan_zero (fuel : Nat) (p : playout_policy) (b : board) (g : Nat) :
    atari_scan fuel p b g 0 = some ctl.next :=
  rfl

theorem atari_scan_succ (fuel : Nat) (p : playout_policy) (b : board) (g n : Nat) :
    atari_scan fuel p b g (n + 1) =
      match group_atari_check fuel p b (b.c g) with
      | none => none
      | some c => if !is_pass c then some (ctl.ret c) else atari_scan fuel p b (g + 1) n := by
  simp only [atari_scan, atari_scan_log]
  cases group_atari_check fuel p b (b.c g) with
  | none => rfl
  | some c =>
    simp only
    split <;> rfl

/-- The control flow of `global_atari_check`, without the record of indices. -/
theorem global_atari_check_body (fuel : Nat) (p : playout_policy) (b : board) (g_base : Nat) :
    global_atari_check fuel p b g_base =
      if b.clen == 0 then some pass
      else
        match atari_scan fuel p b g_base (b.clen - g_base) with
        | none => none
        | some (ctl.ret c) => some c
        | some ctl.next =>
          match atari_scan fuel p b 0 g_base with
          | none => none
          | some (ctl.ret c) => some c
          | some ctl.next => some pass := by
  simp only [global_atari_check, global_atari_check_log, atari_scan]
  split
  · rfl
  · cases (atari_scan_log fuel p b g_base (b.clen - g_base)).1 with
    | none => rfl
    | some r =>
      cases r with
      | ret c => rfl
      | next =>
        simp only
        cases (atari_scan_log fuel p b 0 g_base).1 with
        | none => rfl
        | some r => cases r <;> rfl

theorem atari_scan_congr (b c : board)
    (hgac : ∀ fuel p g, group_atari_check fuel p c g = group_atari_check fuel p b g)
    (hc : c.c = b.c) (fuel : Nat) (p : playout_policy) :
    ∀ (n g : Nat), atari_scan fuel p c g n = atari_scan fuel p b g n := by
  intro n
  induction n with
  | zero => intro g; rfl
  | succ n ih => intro g; simp only [atari_scan_zero, atari_scan_succ, hgac, hc, ih]

theorem global_atari_check_congr (b c : board)
    (hgac : ∀ fuel p g, group_atari_check fuel p c g = group_atari_check fuel p b g)
    (hc : c.c = b.c) (hn : c.clen = b.clen) (fuel : Nat) (p : playout_policy) (g_base : Nat) :
    global_atari_check fuel p c g_base = global_atari_check fuel p b g_base := by
  simp only [global_atari_check_body, atari_scan_congr b c hgac hc, hn]

/-! ## The sweep -/

theorem atari_scan_log_fst (fuel : Nat) (p : playout_policy) (b : board) :
    ∀ (n g : Nat), (atari_scan_log fuel p b g n).1 = atari_scan fuel p b g n :=
  fun _ _ => rfl

theorem global_atari_check_log_fst (fuel : Nat) (p : playout_policy) (b : board) (g_base : Nat) :
    (global_atari_check_log fuel p b g_base).1 = global_atari_check fuel p b g_base :=
  rfl

/-- A loop of the sweep all of whose groups check as pass runs to its end and
examines the indices `g, g + 1, ..., g + n - 1`. -/
theorem atari_scan_log_all_pass (fuel : Nat) (p : playout_policy) (b : board) :
    ∀ (n g : Nat), (∀ j, j < n → group_atari_check fuel p b (b.c (g + j)) = some pass) →
      atari_scan_log fuel p b g n = (some ctl.next, List.range' g n) := by
  intro n
  induction n with
  | zero => intro g _; rfl
  | succ n ih =>
    intro g h
    have h0 := h 0 (Nat.succ_pos n)
    rw [Nat.add_zero] at h0
    have hrest := ih (g + 1) (fun j hj => by
      have := h (j + 1) (Nat.succ_lt_succ hj)
      rwa [Nat.add_assoc, Nat.add_comm 1 j])
    simp only [atari_scan_log, h0, hrest, List.range'_succ, is_pass, beq_self_eq_true,
      Bool.not_true, Bool.false_eq_true, if_false]

theorem atari_scan_all_pass (fuel : Nat) (p : playout_policy) (b : board) (n g : Nat)
    (h : ∀ j, j < n → group_atari_check fuel p b (b.c (g + j)) = some pass) :
    atari_scan fuel p b g n = some ctl.next := by
  rw [← atari_scan_log_fst, atari_scan_log_all_pass fuel p b n g h]

/-- A loop of the sweep returns the check of the first group that does not check
as pass. -/
theorem atari_scan_first (fuel : Nat) (p : playout_policy) (b : board) :
    ∀ (k n g : Nat) (r : coord_t), k < n →
      (∀ j, j < k → group_atari_check fuel p b (b.c (g + j)) = some pass) →
      group_atari_check fuel p b (b.c (g + k)) = some r → r ≠ pass →
      atari_scan fuel p b g n = some (ctl.ret r) := by
  intro k
  induction k with
  | zero =>
    intro n g r hn _ hk hr
    obtain ⟨m, rfl⟩ : ∃ m, n = m + 1 := ⟨n - 1, by omega⟩
    rw [Nat.add_zero] at hk
    have : is_pass r = false := by simpa [is_pass] using hr
    simp only [atari_scan_zero, atari_scan_succ, hk, this, Bool.not_false, if_true]
  | succ k ih =>
    intro n g r hn hpre hk hr
    obtain ⟨m, rfl⟩ : ∃ m, n = m + 1 := ⟨n - 1, by omega⟩
    have h0 := hpre 0 (Nat.succ_pos k)
    rw [Nat.add_zero] at h0
    have hrest := ih m (g + 1) r (by omega) (fun j hj => by
      have := hpre (j + 1) (Nat.succ_lt_succ hj)
      rwa [Nat.add_assoc, Nat.add_comm 1 j]) (by
      rwa [Nat.add_assoc, Nat.add_comm 1 k]) hr
    simp only [atari_scan_zero, atari_scan_succ, h0, hrest, is_pass, beq_self_eq_true, Bool.not_true,
      Bool.false_eq_true, if_false]

theorem rot_lt (clen g_base k : Nat) (h : g_base + k < clen) : rot clen g_base k = g_base + k :=
  Nat.mod_eq_of_lt h

theorem rot_ge (clen g_base k : Nat) (hg : g_base < clen) (hk : k < clen)
    (h : clen ≤ g_base + k) : rot clen g_base k = k - (clen - g_base) := by
  unfold rot
  rw [Nat.mod_eq_sub_mod h, Nat.mod_eq_of_lt (by omega)]
  omega

/-! ## The entry points -/

theorem choose_global_eq (fuel : Nat) (p : playout_policy) (b : board) (g_base : Nat) :
    choose_global fuel p b g_base = global_atari_check fuel p b g_base := by
  unfold choose_global
  cases global_atari_check fuel p b g_base with
  | none => rfl
  | some c =>
    by_cases h : c = pass
    · simp [is_pass, h]
    · simp [is_pass, h]

/-- The neighbour loop, when every check it makes returns: it returns 1.0 if a
neighbour's group has one liberty and checks as the candidate, and falls through
otherwise. -/
theorem assess_neighbors_spec (fuel : Nat) (p : playout_policy) (b : board) (m : move) :
    ∀ L : List coord_t,
      (∀ c ∈ L, (b.board_group_info (b.group_at c)).libs = 1 →
        (group_atari_check fuel p b (b.group_at c)).isSome = true) →
      ((∃ c ∈ L, (b.board_group_info (b.group_at c)).libs = 1 ∧
          group_atari_check fuel p b (b.group_at c) = some m.coord) ∧
        assess_neighbors fuel p b m L = some (ctl.ret (float_t.val 1))) ∨
      ((¬ ∃ c ∈ L, (b.board_group_info (b.group_at c)).libs = 1 ∧
          group_atari_check fuel p b (b.group_at c) = some m.coord) ∧
        assess_neighbors fuel p b m L = some ctl.next) := by
  intro L
  induction L with
  | nil => intro _; right; exact ⟨by simp, rfl⟩
  | cons c cs ih =>
    intro H
    have ih2 := ih (fun d hd => H d (List.mem_cons_of_mem c hd))
    by_cases hl : (b.board_group_info (b.group_at c)).libs = 1
    · have hs := H c (List.mem_cons_self c cs) hl
      obtain ⟨r, hr⟩ := Option.isSome_iff_exists.mp hs
      by_cases hrm : r = m.coord
      · left
        subst hrm
        refine ⟨⟨c, List.mem_cons_self c cs, hl, hr⟩, ?_⟩
        simp [assess_neighbors, hl, hr]
      · have hstep : assess_neighbors fuel p b m (c :: cs) = assess_neighbors fuel p b m cs := by
          simp [assess_neighbors, hl, hr, hrm]
        rw [hstep]
        rcases ih2 with ⟨⟨d, hd, hd1, hd2⟩, hres⟩ | ⟨hno, hres⟩
        · left; exact ⟨⟨d, List.mem_cons_of_mem c hd, hd1, hd2⟩, hres⟩
        · right
          refine ⟨?_, hres⟩
          rintro ⟨d, hd, hd1, hd2⟩
          rcases List.mem_cons.mp hd with rfl | hd
          · rw [hr] at hd2
            exact hrm (Option.some.inj hd2)
          · exact hno ⟨d, hd, hd1, hd2⟩
    · have hstep : assess_neighbors fuel p b m (c :: cs) = assess_neighbors fuel p b m cs := by
        simp [assess_neighbors, hl]
      rw [hstep]
      rcases ih2 with ⟨⟨d, hd, hd1, hd2⟩, hres⟩ | ⟨hno, hres⟩
      · left; exact ⟨⟨d, List.mem_cons_of_mem c hd, hd1, hd2⟩, hres⟩
      · right
        refine ⟨?_, hres⟩
        rintro ⟨d, hd, hd1, hd2⟩
        rcases List.mem_cons.mp hd with rfl | hd
        · exact hl hd1
        · exact hno ⟨d, hd, hd1, hd2⟩

/-- In a run of `ladder_catches`, a step that lands on an off-board cell is the
last one and the function returns true there. -/
theorem ladder_catches_log_offboard (fuel : Nat) (p : playout_policy) (b : board)
    (coord : coord_t) (laddered : group_t) (s : lstep)
    (hs : s ∈ (ladder_catches_log fuel p b coord laddered).2)
    (hoff : b.board_atxy s.x s.y = S_OFFBOARD) :
    (ladder_catches_log fuel p b coord laddered).2.getLast? = some s ∧
      (ladder_catches_log fuel p b coord laddered).1 = some true := by
  simp only [ladder_catches_log] at hs ⊢
  split at hs
  · simp at hs
  · rename_i hgo
    rw [if_neg hgo]
    split at hs
    · rename_i hc
      rw [if_pos hc]
      generalize ladder_xd b (b.coord_x coord) (b.coord_y coord) = xd at hs ⊢
      generalize ladder_yd b (b.coord_x coord) (b.coord_y coord) = yd at hs ⊢
      generalize b.coord_x coord = x at hs ⊢
      generalize b.coord_y coord = y at hs ⊢
      cases hh : ladder_horiz b (b.board_at laddered) xd yd x y with
      | ret r =>
        simp only [hh, List.mem_singleton] at hs ⊢
        subst hs
        have := ladder_check_offboard b (b.board_at laddered) (x + xd) y xd 0 (-2 * xd) yd hoff
        rw [ladder_horiz, this] at hh
        cases hh
        exact ⟨rfl, rfl⟩
      | next =>
        simp only [hh, List.mem_cons] at hs ⊢
        rcases hs with hs | hs
        · subst hs
          have := ladder_check_offboard b (b.board_at laddered) (x + xd) y xd 0 (-2 * xd) yd hoff
          rw [ladder_horiz, this] at hh
          cases hh
        · obtain ⟨h1, h2⟩ := ladder_loop_log_offboard b (b.board_at laddered) xd yd fuel (x + xd) y
            s hs hoff
          refine ⟨?_, h2⟩
          cases hr : (ladder_loop_log b (b.board_at laddered) xd yd fuel (x + xd) y).2 with
          | nil => simp [hr] at hs
          | cons a l =>
            rw [hr] at h1
            simp only [List.getLast?_cons_cons]
            exact h1
    · rename_i hc
      rw [if_neg hc]
      exact ladder_loop_log_offboard _ _ _ _ _ _ _ s hs hoff

theorem corner_board_bordered : bordered corner_board 7 := by
  intro x y hx0 hx1 hy0 hy1 h
  simp only [corner_board, grid_board, grid_cell]
  rw [if_pos]
  push_cast at h hx1 hy1
  omega

theorem corner_board_on_board : on_board corner_board 7 15 := by
  simp [on_board, corner_board, grid_board]

/-! ## The sweep, whatever the offset -/

/-- What a loop of the sweep has seen when it ends: only passes if it falls
through, and the check it returns, which is not pass, if it returns. -/
theorem atari_scan_inv (fuel : Nat) (p : playout_policy) (b : board) :
    ∀ (n g : Nat),
      (atari_scan fuel p b g n = some ctl.next →
        ∀ j, j < n → group_atari_check fuel p b (b.c (g + j)) = some pass) ∧
      (∀ r, atari_scan fuel p b g n = some (ctl.ret r) →
        r ≠ pass ∧ ∃ j, j < n ∧ group_atari_check fuel p b (b.c (g + j)) = some r) := by
  intro n
  induction n with
  | zero =>
    intro g
    refine ⟨fun _ j hj => absurd hj (Nat.not_lt_zero j), fun r h => ?_⟩
    simp [atari_scan_zero] at h
  | succ n ih =>
    intro g
    obtain ⟨ih1, ih2⟩ := ih (g + 1)
    simp only [atari_scan_succ]
    cases hc : group_atari_check fuel p b (b.c g) with
    | none => exact ⟨fun h => (by cases h), fun r h => (by cases h)⟩
    | some c =>
      by_cases hp : c = pass
      · subst hp
        simp only [is_pass, beq_self_eq_true, Bool.not_true, Bool.false_eq_true, if_false]
        refine ⟨fun h j hj => ?_, fun r h => ?_⟩
        · cases j with
          | zero => exact hc
          | succ k =>
            have := ih1 h k (by omega)
            rwa [Nat.add_assoc, Nat.add_comm 1 k] at this
        · obtain ⟨hr, j, hj, hjr⟩ := ih2 r h
          refine ⟨hr, j + 1, by omega, ?_⟩
          rwa [Nat.add_assoc, Nat.add_comm 1 j] at hjr
      · have hnp : is_pass c = false := by simpa [is_pass] using hp
        simp only [hnp, Bool.not_false, if_true]
        refine ⟨fun h => (by cases h), fun r h => ?_⟩
        cases h
        exact ⟨hp, 0, Nat.succ_pos n, hc⟩

theorem atari_scan_returns (fuel : Nat) (p : playout_policy) (b : board) :
    ∀ (n g : Nat),
      (∀ j, j < n → (group_atari_check fuel p b (b.c (g + j))).isSome = true) →
      (atari_scan fuel p b g n).isSome = true := by
  intro n
  induction n with
  | zero => intro g _; rfl
  | succ n ih =>
    intro g h
    have h0 := h 0 (Nat.succ_pos n)
    obtain ⟨c, hc⟩ := Option.isSome_iff_exists.mp h0
    rw [Nat.add_zero] at hc
    simp only [atari_scan_zero, atari_scan_succ, hc]
    split
    · rfl
    · exact ih (g + 1) (fun j hj => by
        have := h (j + 1) (Nat.succ_lt_succ hj)
        rwa [Nat.add_assoc, Nat.add_comm 1 j])

/-- The sweep returns pass exactly when the check of every group of the list is
pass, whatever the offset. -/
theorem global_atari_check_pass_iff (fuel : Nat) (p : playout_policy) (b : board) (g_base : Nat)
    (hg : g_base < b.clen) :
    global_atari_check fuel p b g_base = some pass ↔
      ∀ i, i < b.clen → group_atari_check fuel p b (b.c i) = some pass := by
  have hne : (b.clen == 0) = false := by simp; omega
  constructor
  · intro h i hi
    simp only [global_atari_check_body, hne, Bool.false_eq_true, if_false] at h
    cases h1 : atari_scan fuel p b g_base (b.clen - g_base) with
    | none => simp [h1] at h
    | some r1 =>
      cases r1 with
      | ret c =>
        simp only [h1, Option.some.injEq] at h
        exact absurd h ((atari_scan_inv fuel p b _ _).2 c h1).1
      | next =>
        simp only [h1] at h
        cases h2 : atari_scan fuel p b 0 g_base with
        | none => simp [h2] at h
        | some r2 =>
          cases r2 with
          | ret c =>
            simp only [h2, Option.some.injEq] at h
            exact absurd h ((atari_scan_inv fuel p b _ _).2 c h2).1
          | next =>
            by_cases hlt : i < g_base
            · have := (atari_scan_inv fuel p b _ _).1 h2 i hlt
              rwa [Nat.zero_add] at this
            · have := (atari_scan_inv fuel p b _ _).1 h1 (i - g_base) (by omega)
              rwa [show g_base + (i - g_base) = i by omega] at this
  · intro h
    have h1 := atari_scan_all_pass fuel p b (b.clen - g_base) g_base
      (fun j hj => h _ (by omega))
    have h2 := atari_scan_all_pass fuel p b g_base 0 (fun j hj => h _ (by omega))
    simp only [global_atari_check_body, hne, h1, h2, Bool.false_eq_true, if_false]

/-- A result of the sweep other than pass is the check of a group of the
list. -/
theorem global_atari_check_some (fuel : Nat) (p : playout_policy) (b : board) (g_base : Nat)
    (hg : g_base < b.clen) (r : coord_t) (h : global_atari_check fuel p b g_base = some r)
    (hr : r ≠ pass) :
    ∃ g, g < b.clen ∧ group_atari_check fuel p b (b.c g) = some r := by
  have hne : (b.clen == 0) = false := by simp; omega
  simp only [global_atari_check_body, hne, Bool.false_eq_true, if_false] at h
  cases h1 : atari_scan fuel p b g_base (b.clen - g_base) with
  | none => simp [h1] at h
  | some r1 =>
    cases r1 with
    | ret c =>
      simp only [h1, Option.some.injEq] at h
      subst h
      obtain ⟨-, j, hj, hjr⟩ := (atari_scan_inv fuel p b _ _).2 c h1
      exact ⟨g_base + j, by omega, hjr⟩
    | next =>
      simp only [h1] at h
      cases h2 : atari_scan fuel p b 0 g_base with
      | none => simp [h2] at h
      | some r2 =>
        cases r2 with
        | ret c =>
          simp only [h2, Option.some.injEq] at h
          subst h
          obtain ⟨-, j, hj, hjr⟩ := (atari_scan_inv fuel p b _ _).2 c h2
          exact ⟨0 + j, by omega, hjr⟩
        | next =>
          simp only [h2, Option.some.injEq] at h
          exact absurd h.symm hr

theorem global_atari_check_returns (fuel : Nat) (p : playout_policy) (b : board) (g_base : Nat)
    (hg : g_base < b.clen)
    (H : ∀ i, i < b.clen → (group_atari_check fuel p b (b.c i)).isSome = true) :
    (global_atari_check fuel p b g_base).isSome = true := by
  have h1 := atari_scan_returns fuel p b (b.clen - g_base) g_base (fun j hj => H _ (by omega))
  have h2 := atari_scan_returns fuel p b g_base 0 (fun j hj => H _ (by omega))
  obtain ⟨r1, hr1⟩ := Option.isSome_iff_exists.mp h1
  obtain ⟨r2, hr2⟩ := Option.isSome_iff_exists.mp h2
  simp only [global_atari_check_body, hr1, hr2]
  split
  · rfl
  · cases r1 with
    | ret c => rfl
    | next => cases r2 <;> rfl

/-! ## Checks that return -/

/-- On a bordered board the check of a group with a usable record returns, for
every fuel of at least `S - 2`. -/
theorem group_atari_check_returns (fuel : Nat) (p : playout_policy) (b : board) (S : Nat)
    (g : group_t) (hb : bordered b S) (hf : S - 2 ≤ fuel) (hg : checkable b S g) :
    (group_atari_check fuel p b g).isSome = true := by
  unfold group_atari_check
  by_cases hoff : b.board_at g = S_OFFBOARD
  · simp [hoff]
  · rcases hg with h | ⟨hlib, hon⟩
    · exact absurd h hoff
    · obtain ⟨r, tr, hrun, -⟩ :=
        ladder_catches_log_bordered b S hb p ((b.board_group_info g).lib 0) g hon
      have hres : ladder_catches fuel p b ((b.board_group_info g).lib 0) g = some r := by
        rw [← ladder_catches_log_fst, hrun fuel hf]
      simp only [beq_iff_eq, hoff, if_false, hlib, bne_self_eq_false, Bool.false_eq_true, hres]
      split
      · rfl
      · cases r <;> rfl

/-- The neighbour loop, for every board: it returns 1.0 exactly when it reaches
a neighbour whose group has one liberty and checks as the candidate, every check
made before having returned; it falls through exactly when every check it makes
returns a coordinate other than the candidate; it returns no other weight. -/
theorem assess_neighbors_exact (fuel : Nat) (p : playout_policy) (b : board) (m : move) :
    ∀ L : List coord_t,
      (assess_neighbors fuel p b m L = some (ctl.ret (float_t.val 1)) ↔
        ∃ pre c post, L = pre ++ c :: post ∧
          (b.board_group_info (b.group_at c)).libs = 1 ∧
          group_atari_check fuel p b (b.group_at c) = some m.coord ∧
          ∀ d ∈ pre, (b.board_group_info (b.group_at d)).libs = 1 →
            (group_atari_check fuel p b (b.group_at d)).isSome = true) ∧
      (assess_neighbors fuel p b m L = some ctl.next ↔
        ∀ d ∈ L, (b.board_group_info (b.group_at d)).libs = 1 →
          ∃ r, group_atari_check fuel p b (b.group_at d) = some r ∧ r ≠ m.coord) ∧
      (∀ w, assess_neighbors fuel p b m L = some (ctl.ret w) → w = float_t.val 1) := by
  intro L
  induction L with
  | nil =>
    refine ⟨⟨fun h => by simp [assess_neighbors] at h, ?_⟩, ⟨fun _ d hd => by simp at hd,
      fun _ => rfl⟩, fun w h => by simp [assess_neighbors] at h⟩
    rintro ⟨pre, c, post, h, -⟩
    simp at h
  | cons c cs ih =>
    obtain ⟨ih1, ih2, ih3⟩ := ih
    by_cases hl : (b.board_group_info (b.group_at c)).libs = 1
    · cases hg : group_atari_check fuel p b (b.group_at c) with
      | none =>
        have hstep : assess_neighbors fuel p b m (c :: cs) = none := by
          simp [assess_neighbors, hl, hg]
        rw [hstep]
        refine ⟨⟨fun h => (by cases h), ?_⟩, ⟨fun h => (by cases h), fun h => ?_⟩,
          fun w h => by cases h⟩
        · rintro ⟨pre, c', post, hL, hl', hg', hpre⟩
          cases pre with
          | nil =>
            simp only [List.nil_append, List.cons.injEq] at hL
            rw [← hL.1, hg] at hg'
            cases hg'
          | cons a as =>
            simp only [List.cons_append, List.cons.injEq] at hL
            have := hpre a (List.mem_cons_self a as)
            rw [← hL.1] at this
            have := this hl
            rw [hg] at this
            cases this
        · obtain ⟨r, hr, -⟩ := h c (List.mem_cons_self c cs) hl
          rw [hg] at hr
          cases hr
      | some r =>
        by_cases hrm : r = m.coord
        · subst hrm
          have hstep : assess_neighbors fuel p b m (c :: cs) =
              some (ctl.ret (float_t.val 1)) := by
            simp [assess_neighbors, hl, hg]
          rw [hstep]
          refine ⟨⟨fun _ => ⟨[], c, cs, rfl, hl, hg, fun d hd => by simp at hd⟩, fun _ => rfl⟩,
            ⟨fun h => (by cases h), fun h => ?_⟩, fun w h => ?_⟩
          · obtain ⟨r, hr, hne⟩ := h c (List.mem_cons_self c cs) hl
            rw [hg] at hr
            exact absurd (Option.some.inj hr).symm hne
          · cases h
            rfl
        · have hstep : assess_neighbors fuel p b m (c :: cs) = assess_neighbors fuel p b m cs := by
            simp [assess_neighbors, hl, hg, hrm]
          rw [hstep]
          refine ⟨⟨fun h => ?_, ?_⟩, ⟨fun h d hd => ?_, fun h => ?_⟩, ih3⟩
          · obtain ⟨pre, c', post, hL, hl', hg', hpre⟩ := ih1.mp h
            refine ⟨c :: pre, c', post, by rw [hL]; rfl, hl', hg', fun d hd => ?_⟩
            rcases List.mem_cons.mp hd with rfl | hd
            · intro _; simp [hg]
            · exact hpre d hd
          · rintro ⟨pre, c', post, hL, hl', hg', hpre⟩
            cases pre with
            | nil =>
              simp only [List.nil_append, List.cons.injEq] at hL
              rw [← hL.1, hg] at hg'
              exact absurd (Option.some.inj hg') hrm
            | cons a as =>
              simp only [List.cons_append, List.cons.injEq] at hL
              exact ih1.mpr ⟨as, c', post, hL.2, hl', hg',
                fun d hd => hpre d (List.mem_cons_of_mem a hd)⟩
          · rcases List.mem_cons.mp hd with rfl | hd
            · intro _; exact ⟨r, hg, hrm⟩
            · exact ih2.mp h d hd
          · exact ih2.mpr (fun d hd => h d (List.mem_cons_of_mem c hd))
    · have hstep : assess_neighbors fuel p b m (c :: cs) = assess_neighbors fuel p b m cs := by
        simp [assess_neighbors, hl]
      rw [hstep]
      refine ⟨⟨fun h => ?_, ?_⟩, ⟨fun h d hd => ?_, fun h => ?_⟩, ih3⟩
      · obtain ⟨pre, c', post, hL, hl', hg', hpre⟩ := ih1.mp h
        refine ⟨c :: pre, c', post, by rw [hL]; rfl, hl', hg', fun d hd => ?_⟩
        rcases List.mem_cons.mp hd with rfl | hd
        · intro h1; exact absurd h1 hl
        · exact hpre d hd
      · rintro ⟨pre, c', post, hL, hl', hg', hpre⟩
        cases pre with
        | nil =>
          simp only [List.nil_append, List.cons.injEq] at hL
          rw [← hL.1] at hl'
          exact absurd hl' hl
        | cons a as =>
          simp only [List.cons_append, List.cons.injEq] at hL
          exact ih1.mpr ⟨as, c', post, hL.2, hl', hg',
            fun d hd => hpre d (List.mem_cons_of_mem a hd)⟩
      · rcases List.mem_cons.mp hd with rfl | hd
        · intro h1; exact absurd h1 hl
        · exact ih2.mp h d hd
      · exact ih2.mpr (fun d hd => h d (List.mem_cons_of_mem c hd))

theorem grid_board_bordered (S : Nat) (stones : List (Int × Int × stone))
    (grp : coord_t → group_t) (info : group_t → group_info) (valid : stone → coord_t → Bool)
    (gs : List group_t) : bordered (grid_board (S : Int) stones grp info valid gs) S := by
  intro x y hx0 hx1 hy0 hy1 h
  simp only [grid_board, grid_cell]
  rw [if_pos]
  omega

theorem single_board_bordered : bordered single_board 7 :=
  grid_board_bordered 7 _ _ _ _ _

theorem single_board_checkable : ∀ d ∈ single_board.neighbors 24,
    (single_board.board_group_info (single_board.group_at d)).libs = 1 →
    checkable single_board 7 (single_board.group_at d) := by
  intro d hd hl
  simp only [single_board, grid_board, List.mem_cons, List.mem_singleton, List.not_mem_nil,
    or_false] at hd
  rcases hd with rfl | rfl | rfl | rfl
  · exact absurd hl (by decide)
  · exact Or.inr ⟨by decide, by simp [on_board, single_board, grid_board, info_of]⟩
  · exact absurd hl (by decide)
  · exact absurd hl (by decide)

theorem assess_nan_iff (fuel : Nat) (p : playout_policy) (b : board) (m : move)
    (hm : is_pass m.coord = false) :
    playout_moggy_assess fuel p b m = some float_t.NAN ↔
      ∀ d ∈ b.neighbors m.coord, (b.board_group_info (b.group_at d)).libs = 1 →
        ∃ r, group_atari_check fuel p b (b.group_at d) = some r ∧ r ≠ m.coord := by
  obtain ⟨-, e2, e3⟩ := assess_neighbors_exact fuel p b m (b.neighbors m.coord)
  rw [← e2]
  simp only [playout_moggy_assess, hm, Bool.false_eq_true, if_false]
  cases hr : assess_neighbors fuel p b m (b.neighbors m.coord) with
  | none => simp
  | some r =>
    cases r with
    | ret w =>
      have := e3 w hr
      subst this
      simp
    | next => simp

/-! # The claims -/

/-- C1: for a group whose first recorded liberty is an empty cell,
`group_atari_check` returns pass when the colour at the representative is
off-board; returns pass when `valid_escape_route` fails, whatever the ladder
reader does; and otherwise returns pass if `ladder_catches` returns true and the
first liberty if it returns false (and does not return if the ladder reader does
not). -/
theorem C1_group_atari_check_characterised (fuel : Nat) (p : playout_policy) (b : board)
    (group : group_t) (hlib : b.board_at ((b.board_group_info group).lib 0) = S_NONE) :
    (b.board_at group = S_OFFBOARD → group_atari_check fuel p b group = some pass) ∧
    (b.board_at group ≠ S_OFFBOARD →
      b.valid_escape_route (b.board_at group) ((b.board_group_info group).lib 0) = false →
      group_atari_check fuel p b group = some pass) ∧
    (b.board_at group ≠ S_OFFBOARD →
      b.valid_escape_route (b.board_at group) ((b.board_group_info group).lib 0) = true →
      group_atari_check fuel p b group =
        (ladder_catches fuel p b ((b.board_group_info group).lib 0) group).map
          (fun caught => if caught then pass else (b.board_group_info group).lib 0)) := by
  refine ⟨?_, ?_, ?_⟩
  · intro h
    simp [group_atari_check, h]
  · intro h hv
    simp [group_atari_check, h, hlib, hv]
  · intro h hv
    simp only [group_atari_check, beq_iff_eq, h, if_false, hlib, bne_self_eq_false,
      Bool.false_eq_true, hv, Bool.not_true]
    cases ladder_catches fuel p b ((b.board_group_info group).lib 0) group with
    | none => rfl
    | some r => cases r <;> rfl

/-- Witness of C1 on the corner board: the black stone at (1,1) has the empty
cell (1,2) as first liberty. -/
theorem C1_witness :
    corner_board.board_at ((corner_board.board_group_info 8).lib 0) = S_NONE ∧
    group_atari_check 7 ⟨0⟩ corner_board 8 =
      (ladder_catches 7 ⟨0⟩ corner_board ((corner_board.board_group_info 8).lib 0) 8).map
        (fun caught => if caught then pass else (corner_board.board_group_info 8).lib 0) :=
  ⟨by decide,
    (C1_group_atari_check_characterised 7 ⟨0⟩ corner_board 8 (by decide)).2.2 (by decide)
      (by decide)⟩

/-- Counterexample to C2: the lone black stone in the centre has four liberties,
is not in atari, and `group_atari_check` returns its first recorded liberty
(3,2), not pass. -/
theorem C2_counterexample :
    (lone_board.board_group_info 24).libs = 4 ∧
    lone_board.board_at 24 = S_BLACK ∧
    group_atari_check 0 ⟨0⟩ lone_board 24 = some 17 ∧
    group_atari_check 0 ⟨0⟩ lone_board 24 ≠ some pass := by
  decide

/-- C2 as amended: for every group, in atari or not, `group_atari_check` returns
pass if the colour at its representative is off-board, or (its first recorded
liberty being an empty cell) if `valid_escape_route` fails or `ladder_catches`
returns true; when none of these holds it returns the first recorded liberty.
The liberty count is not read: replacing it by any number leaves the result
unchanged. -/
theorem C2_group_atari_check_not_in_atari (fuel : Nat) (p : playout_policy) (b : board)
    (group : group_t) :
    (b.board_at group = S_OFFBOARD → group_atari_check fuel p b group = some pass) ∧
    (b.board_at ((b.board_group_info group).lib 0) = S_NONE →
      b.valid_escape_route (b.board_at group) ((b.board_group_info group).lib 0) = false →
      group_atari_check fuel p b group = some pass) ∧
    (b.board_at ((b.board_group_info group).lib 0) = S_NONE →
      ladder_catches fuel p b ((b.board_group_info group).lib 0) group = some true →
      group_atari_check fuel p b group = some pass) ∧
    (b.board_at group ≠ S_OFFBOARD →
      b.board_at ((b.board_group_info group).lib 0) = S_NONE →
      b.valid_escape_route (b.board_at group) ((b.board_group_info group).lib 0) = true →
      ladder_catches fuel p b ((b.board_group_info group).lib 0) group = some false →
      group_atari_check fuel p b group = some ((b.board_group_info group).lib 0)) ∧
    (∀ n : Int,
      group_atari_check fuel p (set_libs b group n) group = group_atari_check fuel p b group) := by
  refine ⟨?_, ?_, ?_, ?_, ?_⟩
  · intro h
    simp [group_atari_check, h]
  · intro hlib hv
    by_cases h : b.board_at group = S_OFFBOARD
    · simp [group_atari_check, h]
    · simp [group_atari_check, h, hlib, hv]
  · intro hlib hl
    by_cases h : b.board_at group = S_OFFBOARD
    · simp [group_atari_check, h]
    · cases hv : b.valid_escape_route (b.board_at group) ((b.board_group_info group).lib 0)
      · simp [group_atari_check, h, hlib, hv]
      · simp [group_atari_check, h, hlib, hv, hl]
  · intro h hlib hv hl
    simp [group_atari_check, h, hlib, hv, hl]
  · intro n
    exact group_atari_check_set_libs fuel p b group n group

/-- Witness of C2 as amended: the lone stone of `lone_board`, with four
liberties, gets its first recorded liberty. -/
theorem C2_witness :
    (lone_board.board_group_info 24).libs ≠ 1 ∧
    group_atari_check 0 ⟨0⟩ lone_board 24 = some ((lone_board.board_group_info 24).lib 0) :=
  ⟨by decide,
    (C2_group_atari_check_not_in_atari 0 ⟨0⟩ lone_board 24).2.2.2.1 (by decide)
      (by decide) (by decide) (by decide)⟩

/-- C3: with an empty group list `global_atari_check` returns pass and examines
no group; with `g_base < clen` it returns the check of the first index, in the
order `g_base, ..., clen - 1, 0, ..., g_base - 1`, whose check is not pass, and
pass when every check in that order is pass. -/
theorem C3_global_atari_check_first (fuel : Nat) (p : playout_policy) (b : board)
    (g_base : Nat) :
    (b.clen = 0 → global_atari_check_log fuel p b g_base = (some pass, []) ∧
      global_atari_check fuel p b g_base = some pass) ∧
    (g_base < b.clen →
      (∀ (k : Nat) (r : coord_t), k < b.clen →
        (∀ j, j < k → group_atari_check fuel p b (b.c (rot b.clen g_base j)) = some pass) →
        group_atari_check fuel p b (b.c (rot b.clen g_base k)) = some r → r ≠ pass →
        global_atari_check fuel p b g_base = some r) ∧
      ((∀ j, j < b.clen → group_atari_check fuel p b (b.c (rot b.clen g_base j)) = some pass) →
        global_atari_check fuel p b g_base = some pass)) := by
  refine ⟨?_, ?_⟩
  · intro h0
    simp [global_atari_check_log, global_atari_check, h0]
  · intro hg
    have hne : (b.clen == 0) = false := by simp; omega
    refine ⟨?_, ?_⟩
    · intro k r hk hpre hkr hr
      by_cases hcase : k < b.clen - g_base
      · have h1 := atari_scan_first fuel p b k (b.clen - g_base) g_base r hcase
          (fun j hj => by
            have := hpre j hj
            rwa [rot_lt b.clen g_base j (by omega)] at this)
          (by rwa [rot_lt b.clen g_base k (by omega)] at hkr) hr
        simp only [global_atari_check_body, hne, h1, Bool.false_eq_true, if_false]
      · have h1 := atari_scan_all_pass fuel p b (b.clen - g_base) g_base (fun j hj => by
          have := hpre j (by omega)
          rwa [rot_lt b.clen g_base j (by omega)] at this)
        have h2 := atari_scan_first fuel p b (k - (b.clen - g_base)) g_base 0 r (by omega)
          (fun j hj => by
            have := hpre (j + (b.clen - g_base)) (by omega)
            rw [rot_ge b.clen g_base _ hg (by omega) (by omega)] at this
            rw [Nat.zero_add]
            rwa [Nat.add_sub_cancel] at this)
          (by
            rw [rot_ge b.clen g_base k hg hk (by omega)] at hkr
            rwa [Nat.zero_add]) hr
        simp only [global_atari_check_body, hne, h1, h2, Bool.false_eq_true, if_false]
    · intro hall
      have h1 := atari_scan_all_pass fuel p b (b.clen - g_base) g_base (fun j hj => by
        have := hall j (by omega)
        rwa [rot_lt b.clen g_base j (by omega)] at this)
      have h2 := atari_scan_all_pass fuel p b g_base 0 (fun j hj => by
        have := hall (j + (b.clen - g_base)) (by omega)
        rw [rot_ge b.clen g_base _ hg (by omega) (by omega)] at this
        rw [Nat.zero_add]
        rwa [Nat.add_sub_cancel] at this)
      simp only [global_atari_check_body, hne, h1, h2, Bool.false_eq_true, if_false]

/-- Witness of C3 on `twin_board`, whose list holds two groups: started at
offset 1 the sweep returns the check of the group at index 1. -/
theorem C3_witness :
    1 < twin_board.clen ∧ rot twin_board.clen 1 0 = 1 ∧
    global_atari_check 0 ⟨0⟩ twin_board 1 = some 24 :=
  ⟨by decide, by decide,
    ((C3_global_atari_check_first 0 ⟨0⟩ twin_board 1).2 (by decide)).1 0 24 (by decide)
      (fun j hj => absurd hj (Nat.not_lt_zero j)) (by decide) (by decide)⟩

/-- C4: the value of `global_atari_check` is that of the recorded run, and it is
pass only if the check of every group of the list is pass.  For `clen > 0` and
`g_base < clen`, when the check of every group is pass, the sweep returns pass
and the list indices whose group it examines are, in order,
`g_base, ..., clen - 1, 0, ..., g_base - 1`: a permutation of `0, ..., clen - 1`
without repetition, so every group is examined exactly once. -/
theorem C4_sweep_examines_each_once (fuel : Nat) (p : playout_policy) (b : board)
    (g_base : Nat) (hclen : 0 < b.clen) (hg : g_base < b.clen) :
    global_atari_check fuel p b g_base = (global_atari_check_log fuel p b g_base).1 ∧
    (global_atari_check fuel p b g_base = some pass →
      ∀ i, i < b.clen → group_atari_check fuel p b (b.c i) = some pass) ∧
    ((∀ i, i < b.clen → group_atari_check fuel p b (b.c i) = some pass) →
      global_atari_check fuel p b g_base = some pass ∧
      global_atari_check_log fuel p b g_base =
        (some pass, List.range' g_base (b.clen - g_base) ++ List.range' 0 g_base) ∧
      List.Perm (global_atari_check_log fuel p b g_base).2 (List.range b.clen) ∧
      (global_atari_check_log fuel p b g_base).2.Nodup) := by
  refine ⟨rfl, (global_atari_check_pass_iff fuel p b g_base hg).mp, fun hpass => ?_⟩
  have hne : (b.clen == 0) = false := by simp; omega
  have h1 := atari_scan_log_all_pass fuel p b (b.clen - g_base) g_base
    (fun j hj => hpass _ (by omega))
  have h2 := atari_scan_log_all_pass fuel p b g_base 0 (fun j hj => hpass _ (by omega))
  have hlog : global_atari_check_log fuel p b g_base =
      (some pass, List.range' g_base (b.clen - g_base) ++ List.range' 0 g_base) := by
    simp only [global_atari_check_log, hne, h1, h2, Bool.false_eq_true, if_false]
  have hperm : List.Perm (List.range' g_base (b.clen - g_base) ++ List.range' 0 g_base)
      (List.range b.clen) := by
    refine List.perm_append_comm.trans ?_
    have := List.range'_append_1 0 g_base (b.clen - g_base)
    rw [Nat.zero_add] at this
    rw [this, List.range_eq_range']
    have : b.clen - g_base + g_base = b.clen := by omega
    rw [this]
  refine ⟨?_, hlog, ?_, ?_⟩
  · rw [← global_atari_check_log_fst, hlog]
  · rw [hlog]
    exact hperm
  · rw [hlog]
    exact hperm.nodup_iff.mpr (List.nodup_range b.clen)

/-- Witness of C4 on the corner board, whose two groups both check as pass: the
sweep started at offset 1 examines index 1, then index 0. -/
theorem C4_witness :
    0 < corner_board.clen ∧ 1 < corner_board.clen ∧
    global_atari_check_log 7 ⟨0⟩ corner_board 1 = (some pass, [1, 0]) ∧
    List.Perm (global_atari_check_log 7 ⟨0⟩ corner_board 1).2 (List.range corner_board.clen) :=
  ⟨by decide, by decide, by decide,
    ((C4_sweep_examines_each_once 7 ⟨0⟩ corner_board 1 (by decide) (by decide)).2.2
      (by decide)).2.2.1⟩

/-- C5: `playout_moggy_choose` returns exactly what `global_atari_check` returns
on the same board with the same offset, does not return when the sweep does not;
the result depends neither on the colour to move nor on the last move recorded
in the board. -/
theorem C5_choose_is_global_atari_check (fuel : Nat) (p : playout_policy) (b : board)
    (our_real_color : stone) (g_base : Nat) :
    playout_moggy_choose fuel p b our_real_color g_base = global_atari_check fuel p b g_base ∧
    (∀ color : stone, playout_moggy_choose fuel p b color g_base =
      playout_moggy_choose fuel p b our_real_color g_base) ∧
    (∀ lm : move, playout_moggy_choose fuel p { b with last_move := lm } our_real_color g_base =
      playout_moggy_choose fuel p b our_real_color g_base) := by
  have key : ∀ (c : board) (color : stone),
      playout_moggy_choose fuel p c color g_base = global_atari_check fuel p c g_base := by
    intro c color
    simp only [playout_moggy_choose, choose_global_eq, ite_self]
  refine ⟨key b our_real_color, ?_, ?_⟩
  · intro color
    rw [key, key]
  · intro lm
    rw [key, key]
    exact global_atari_check_congr b { b with last_move := lm }
      (fun f q g => group_atari_check_congr b { b with last_move := lm } rfl rfl rfl rfl rfl
        (fun _ => rfl) rfl f q g) rfl rfl fuel p g_base

/-- C7: for every policy, board and colour, `playout_moggy_assess` of a pass move
returns the NAN sentinel; this holds with no fuel at all and whatever the board
view answers, no neighbour or group being examined. -/
theorem C7_assess_pass (fuel : Nat) (p : playout_policy) (b : board) (color : stone) :
    playout_moggy_assess fuel p b ⟨pass, color⟩ = some float_t.NAN := by
  simp [playout_moggy_assess, is_pass]

/-- Counterexample to C8: on `twin_board` the group at (2,3) neighbours the
candidate (3,3), has that cell as its only liberty and checks as the candidate,
so the assessment is 1.0; with its liberty count changed to 2 the assessment is
still 1.0, because of the group at (4,3). -/
theorem C8_counterexample :
    (23 : coord_t) ∈ twin_board.neighbors 24 ∧
    (twin_board.board_group_info (twin_board.group_at 23)).libs = 1 ∧
    (twin_board.board_group_info (twin_board.group_at 23)).lib 0 = 24 ∧
    group_atari_check 0 ⟨0⟩ twin_board (twin_board.group_at 23) = some 24 ∧
    playout_moggy_assess 0 ⟨0⟩ twin_board ⟨24, S_BLACK⟩ = some (float_t.val 1) ∧
    playout_moggy_assess 0 ⟨0⟩ (set_libs twin_board (twin_board.group_at 23) 2) ⟨24, S_BLACK⟩ =
      some (float_t.val 1) ∧
    playout_moggy_assess 0 ⟨0⟩ (set_libs twin_board (twin_board.group_at 23) 2) ⟨24, S_BLACK⟩ ≠
      some float_t.NAN := by
  decide

theorem set_libs_libs (b : board) (g : group_t) (n : Int) (h : group_t) :
    ((set_libs b g n).board_group_info h).libs =
      if h = g then n else (b.board_group_info h).libs := by
  simp only [set_libs]
  split <;> rfl

/-- C8 as amended: when a neighbour cell of the candidate has a group with liberty count 1
whose check is the candidate, then after that group's liberty count is changed
to 2, the rest of the board unchanged, the assessment is the NAN sentinel if and
only if, for every neighbour cell of another group with liberty count 1,
`group_atari_check` returns a coordinate other than the candidate.  On a board
of side `S` with off-board border, with fuel of at least `S - 2`, when each
neighbour group with liberty count 1 has an off-board representative or an
empty first liberty strictly inside the border, the assessment is 1.0 before the
change, and the NAN sentinel after it provided no neighbour cell belongs to
another group with liberty count 1 whose check is the candidate. -/
theorem C8_assess_after_second_liberty (fuel : Nat) (p : playout_policy) (b : board)
    (m : move) (c0 : coord_t) (hm : is_pass m.coord = false) (hc0 : c0 ∈ b.neighbors m.coord)
    (hlibs : (b.board_group_info (b.group_at c0)).libs = 1)
    (hsave : group_atari_check fuel p b (b.group_at c0) = some m.coord) :
    (playout_moggy_assess fuel p (set_libs b (b.group_at c0) 2) m = some float_t.NAN ↔
      ∀ c ∈ b.neighbors m.coord, b.group_at c ≠ b.group_at c0 →
        (b.board_group_info (b.group_at c)).libs = 1 →
        ∃ r, group_atari_check fuel p b (b.group_at c) = some r ∧ r ≠ m.coord) ∧
    (∀ S : Nat, bordered b S → S - 2 ≤ fuel →
      (∀ d ∈ b.neighbors m.coord, (b.board_group_info (b.group_at d)).libs = 1 →
        checkable b S (b.group_at d)) →
      playout_moggy_assess fuel p b m = some (float_t.val 1) ∧
      ((∀ c ∈ b.neighbors m.coord, b.group_at c ≠ b.group_at c0 →
          ¬ ((b.board_group_info (b.group_at c)).libs = 1 ∧
            group_atari_check fuel p b (b.group_at c) = some m.coord)) →
        playout_moggy_assess fuel p (set_libs b (b.group_at c0) 2) m = some float_t.NAN)) := by
  have hnb : (set_libs b (b.group_at c0) 2).neighbors = b.neighbors := rfl
  have hga : (set_libs b (b.group_at c0) 2).group_at = b.group_at := rfl
  have hl : ∀ c, ((set_libs b (b.group_at c0) 2).board_group_info (b.group_at c)).libs = 1 ↔
      (b.group_at c ≠ b.group_at c0 ∧ (b.board_group_info (b.group_at c)).libs = 1) := by
    intro c
    rw [set_libs_libs]
    by_cases hg : b.group_at c = b.group_at c0
    · rw [if_pos hg]
      exact ⟨fun h => absurd h (by decide), fun h => absurd hg h.1⟩
    · rw [if_neg hg]
      exact ⟨fun h => ⟨hg, h⟩, fun h => h.2⟩
  have hiff : playout_moggy_assess fuel p (set_libs b (b.group_at c0) 2) m = some float_t.NAN ↔
      ∀ c ∈ b.neighbors m.coord, b.group_at c ≠ b.group_at c0 →
        (b.board_group_info (b.group_at c)).libs = 1 →
        ∃ r, group_atari_check fuel p b (b.group_at c) = some r ∧ r ≠ m.coord := by
    rw [assess_nan_iff fuel p (set_libs b (b.group_at c0) 2) m hm, hnb, hga]
    constructor
    · intro h c hc hne hc1
      have := h c hc ((hl c).mpr ⟨hne, hc1⟩)
      rwa [group_atari_check_set_libs] at this
    · intro h c hc hc1
      obtain ⟨hne, hc1'⟩ := (hl c).mp hc1
      rw [group_atari_check_set_libs]
      exact h c hc hne hc1'
  refine ⟨hiff, fun S hb hf hwf => ?_⟩
  have H : ∀ c ∈ b.neighbors m.coord, (b.board_group_info (b.group_at c)).libs = 1 →
      (group_atari_check fuel p b (b.group_at c)).isSome = true :=
    fun c hc hl => group_atari_check_returns fuel p b S _ hb hf (hwf c hc hl)
  refine ⟨?_, fun hother => hiff.mpr (fun c hc hne hc1 => ?_)⟩
  · rcases assess_neighbors_spec fuel p b m (b.neighbors m.coord) H with ⟨_, hres⟩ | ⟨hno, _⟩
    · simp only [playout_moggy_assess, hm, hres, Bool.false_eq_true, if_false]
    · exact absurd ⟨c0, hc0, hlibs, hsave⟩ hno
  · obtain ⟨r, hr⟩ := Option.isSome_iff_exists.mp (H c hc hc1)
    refine ⟨r, hr, fun hrm => hother c hc hne ⟨hc1, ?_⟩⟩
    rw [hr, hrm]

/-- Witness of C8 as amended on `single_board`, of side 7, with fuel 7: the move
at (3,3) is assessed 1.0, and NAN once the liberty count of the stone at (2,3)
reads 2. -/
theorem C8_witness :
    (23 : coord_t) ∈ single_board.neighbors 24 ∧
    (single_board.board_group_info (single_board.group_at 23)).libs = 1 ∧
    bordered single_board 7 ∧
    playout_moggy_assess 7 ⟨0⟩ single_board ⟨24, S_BLACK⟩ = some (float_t.val 1) ∧
    playout_moggy_assess 7 ⟨0⟩ (set_libs single_board (single_board.group_at 23) 2)
      ⟨24, S_BLACK⟩ = some float_t.NAN :=
  ⟨by decide, by decide, single_board_bordered,
    ((C8_assess_after_second_liberty 7 ⟨0⟩ single_board ⟨24, S_BLACK⟩ 23 (by decide)
      (by decide) (by decide) (by decide)).2 7 single_board_bordered (by decide)
      single_board_checkable).1,
    ((C8_assess_after_second_liberty 7 ⟨0⟩ single_board ⟨24, S_BLACK⟩ 23 (by decide)
      (by decide) (by decide) (by decide)).2 7 single_board_bordered (by decide)
      single_board_checkable).2 (by decide)⟩

/-- C9: on a board of side `S` whose border cells are off-board, for every
liberty strictly inside the border and every laddered group, `ladder_catches`
returns: one and the same result is produced by every fuel of at least `S - 2`.
Moreover, in any run, a step that lands on an off-board cell is the last step
and `ladder_catches` returns true there. -/
theorem C9_ladder_catches_terminates (b : board) (S : Nat) (p : playout_policy)
    (coord : coord_t) (laddered : group_t) (hb : bordered b S) (hc : on_board b S coord) :
    (∃ r, ∀ fuel, S - 2 ≤ fuel → ladder_catches fuel p b coord laddered = some r) ∧
    (∀ (fuel : Nat) (s : lstep), s ∈ (ladder_catches_log fuel p b coord laddered).2 →
      b.board_atxy s.x s.y = S_OFFBOARD →
      (ladder_catches_log fuel p b coord laddered).2.getLast? = some s ∧
        ladder_catches fuel p b coord laddered = some true) := by
  refine ⟨?_, ?_⟩
  · obtain ⟨r, tr, hrun, _⟩ := ladder_catches_log_bordered b S hb p coord laddered hc
    refine ⟨r, fun fuel hf => ?_⟩
    rw [← ladder_catches_log_fst, hrun fuel hf]
  · intro fuel s hs hoff
    have := ladder_catches_log_offboard fuel p b coord laddered s hs hoff
    rw [ladder_catches_log_fst] at this
    exact this

/-- Witness of C9 on the corner board: the ladder of the stone at (1,1), read
from its liberty (1,2), runs to the upper border. -/
theorem C9_witness :
    bordered corner_board 7 ∧ on_board corner_board 7 15 ∧
    ∃ r, ∀ fuel, 7 - 2 ≤ fuel → ladder_catches fuel ⟨0⟩ corner_board 15 8 = some r :=
  ⟨corner_board_bordered, corner_board_on_board,
    (C9_ladder_catches_terminates corner_board 7 ⟨0⟩ 15 8 corner_board_bordered
      corner_board_on_board).1⟩

/-- Counterexample to C10: on the corner board, of side 7 with the border and 5
without, the stone at (1,1) is in atari with liberty (1,2) and `ladder_catches`
performs 8 single-cell steps before it returns. -/
theorem C10_counterexample :
    (corner_board.board_group_info 8).libs = 1 ∧
    (corner_board.board_group_info 8).lib 0 = 15 ∧
    ladder_catches_log 7 ⟨0⟩ corner_board 15 8 =
      (some true, [⟨true, 2, 2⟩, ⟨false, 2, 3⟩, ⟨true, 3, 3⟩, ⟨false, 3, 4⟩, ⟨true, 4, 4⟩,
        ⟨false, 4, 5⟩, ⟨true, 5, 5⟩, ⟨false, 5, 6⟩]) ∧
    ¬ ((ladder_catches_log 7 ⟨0⟩ corner_board 15 8).2.length ≤ 7) := by
  decide

/-- C10 as amended: on a board of side `S` (border included) whose border cells
are off-board, for every liberty strictly inside the border, `ladder_catches`
returns after at most `2 * S - 3` single-cell steps: result and steps are the
same for every fuel of at least `S - 2`. -/
theorem C10_ladder_steps_bound (b : board) (S : Nat) (p : playout_policy) (coord : coord_t)
    (laddered : group_t) (hb : bordered b S) (hc : on_board b S coord) :
    ∃ r tr, (∀ fuel, S - 2 ≤ fuel →
        ladder_catches_log fuel p b coord laddered = (some r, tr) ∧
        ladder_catches fuel p b coord laddered = some r) ∧
      tr.length + 3 ≤ 2 * S := by
  obtain ⟨r, tr, hrun, hlen⟩ := ladder_catches_log_bordered b S hb p coord laddered hc
  refine ⟨r, tr, fun fuel hf => ⟨hrun fuel hf, ?_⟩, hlen⟩
  rw [← ladder_catches_log_fst, hrun fuel hf]

/-- Witness of C10 as amended on the corner board. -/
theorem C10_witness :
    bordered corner_board 7 ∧ on_board corner_board 7 15 ∧
    ∃ r tr, (∀ fuel, 7 - 2 ≤ fuel →
        ladder_catches_log fuel ⟨0⟩ corner_board 15 8 = (some r, tr) ∧
        ladder_catches fuel ⟨0⟩ corner_board 15 8 = some r) ∧
      tr.length + 3 ≤ 2 * 7 :=
  ⟨corner_board_bordered, corner_board_on_board,
    C10_ladder_steps_bound corner_board 7 ⟨0⟩ 15 8 corner_board_bordered corner_board_on_board⟩

/-! ## The steps of a run -/

theorem ladder_loop_log_nil (b : board) (lcolor : stone) (xd yd : Int) (fuel : Nat) (x y : Int)
    (h : (ladder_loop_log b lcolor xd yd fuel x y).2 = []) :
    (ladder_loop_log b lcolor xd yd fuel x y).1 = none := by
  cases fuel with
  | zero => rfl
  | succ n =>
    simp only [ladder_loop_log] at h
    cases hv : ladder_vert b lcolor xd yd x y with
    | ret r => simp [hv] at h
    | next =>
      rw [hv] at h
      cases hh : ladder_horiz b lcolor xd yd x (y + yd) with
      | ret r => simp [hh] at h
      | next => simp [hh] at h

/-- Each step of the loop decides the run: a check that returns ends the run
with its value, a check that falls through is followed by another step unless
the fuel is used up. -/
theorem ladder_loop_log_step (b : board) (lcolor : stone) (xd yd : Int) :
    ∀ (fuel : Nat) (x y : Int) (i : Nat) (s : lstep),
      (ladder_loop_log b lcolor xd yd fuel x y).2[i]? = some s →
      (∀ r, step_check b lcolor xd yd s = ctl.ret r →
        (ladder_loop_log b lcolor xd yd fuel x y).2.length = i + 1 ∧
          (ladder_loop_log b lcolor xd yd fuel x y).1 = some r) ∧
      (step_check b lcolor xd yd s = ctl.next →
        i + 1 < (ladder_loop_log b lcolor xd yd fuel x y).2.length ∨
          (ladder_loop_log b lcolor xd yd fuel x y).1 = none) := by
  intro fuel
  induction fuel with
  | zero => intro x y i s hs; simp [ladder_loop_log] at hs
  | succ n ih =>
    intro x y i s hs
    have hsv : step_check b lcolor xd yd ⟨false, x, y + yd⟩ = ladder_vert b lcolor xd yd x y := by
      simp [step_check, ladder_vert]
    have hsh : step_check b lcolor xd yd ⟨true, x + xd, y + yd⟩ =
        ladder_horiz b lcolor xd yd x (y + yd) := by
      simp [step_check, ladder_horiz]
    simp only [ladder_loop_log] at hs ⊢
    cases hv : ladder_vert b lcolor xd yd x y with
    | ret r0 =>
      simp only [hv] at hs ⊢
      cases i with
      | zero =>
        simp only [List.getElem?_cons_zero, Option.some.injEq] at hs
        subst hs
        rw [hsv, hv]
        exact ⟨fun r hr => by cases hr; exact ⟨rfl, rfl⟩, fun h => by cases h⟩
      | succ j => simp at hs
    | next =>
      simp only [hv] at hs ⊢
      cases hh : ladder_horiz b lcolor xd yd x (y + yd) with
      | ret r0 =>
        simp only [hh] at hs ⊢
        cases i with
        | zero =>
          simp only [List.getElem?_cons_zero, Option.some.injEq] at hs
          subst hs
          rw [hsv, hv]
          exact ⟨fun r hr => (by cases hr), fun _ => Or.inl (by simp)⟩
        | succ j =>
          cases j with
          | zero =>
            simp only [List.getElem?_cons_succ, List.getElem?_cons_zero,
              Option.some.injEq] at hs
            subst hs
            rw [hsh, hh]
            exact ⟨fun r hr => by cases hr; exact ⟨rfl, rfl⟩, fun h => by cases h⟩
          | succ k => simp at hs
      | next =>
        simp only [hh] at hs ⊢
        cases i with
        | zero =>
          simp only [List.getElem?_cons_zero, Option.some.injEq] at hs
          subst hs
          rw [hsv, hv]
          exact ⟨fun r hr => (by cases hr), fun _ => Or.inl (by simp)⟩
        | succ j =>
          cases j with
          | zero =>
            simp only [List.getElem?_cons_succ, List.getElem?_cons_zero,
              Option.some.injEq] at hs
            subst hs
            rw [hsh, hh]
            refine ⟨fun r hr => (by cases hr), fun _ => ?_⟩
            cases hr : (ladder_loop_log b lcolor xd yd n (x + xd) (y + yd)).2 with
            | nil => exact Or.inr (ladder_loop_log_nil b lcolor xd yd n _ _ hr)
            | cons a l => exact Or.inl (by simp)
          | succ k =>
            simp only [List.getElem?_cons_succ] at hs
            obtain ⟨h1, h2⟩ := ih (x + xd) (y + yd) k s hs
            refine ⟨fun r hr => ?_, fun hn => ?_⟩
            · obtain ⟨hl, hres⟩ := h1 r hr
              exact ⟨by simp only [List.length_cons, hl], hres⟩
            · rcases h2 hn with h | h
              · exact Or.inl (by simp only [List.length_cons]; omega)
              · exact Or.inr h

/-- The steps of the loop alternate, the first one being vertical, and each
advances one coordinate by its direction. -/
theorem ladder_loop_log_alternate (b : board) (lcolor : stone) (xd yd : Int) :
    ∀ (fuel : Nat) (x y : Int),
      (∀ s, (ladder_loop_log b lcolor xd yd fuel x y).2[0]? = some s → s = ⟨false, x, y + yd⟩) ∧
      (∀ (i : Nat) (s t : lstep), (ladder_loop_log b lcolor xd yd fuel x y).2[i]? = some s →
        (ladder_loop_log b lcolor xd yd fuel x y).2[i + 1]? = some t →
        t = if s.horiz then ⟨false, s.x, s.y + yd⟩ else ⟨true, s.x + xd, s.y⟩) := by
  intro fuel
  induction fuel with
  | zero => intro x y; simp [ladder_loop_log]
  | succ n ih =>
    intro x y
    simp only [ladder_loop_log]
    cases hv : ladder_vert b lcolor xd yd x y with
    | ret r0 =>
      refine ⟨fun s hs => by simpa using hs.symm, fun i s t hs ht => by simp at ht⟩
    | next =>
      cases hh : ladder_horiz b lcolor xd yd x (y + yd) with
      | ret r0 =>
        refine ⟨fun s hs => by simpa using hs.symm, fun i s t hs ht => ?_⟩
        cases i with
        | zero =>
          simp only [List.getElem?_cons_zero, Option.some.injEq, Nat.zero_add,
            List.getElem?_cons_succ] at hs ht
          subst hs; subst ht; simp
        | succ j => simp at ht
      | next =>
        obtain ⟨ih0, ihs⟩ := ih (x + xd) (y + yd)
        refine ⟨fun s hs => by simpa using hs.symm, fun i s t hs ht => ?_⟩
        cases i with
        | zero =>
          simp only [List.getElem?_cons_zero, Option.some.injEq, Nat.zero_add,
            List.getElem?_cons_succ] at hs ht
          subst hs; subst ht; simp
        | succ j =>
          cases j with
          | zero =>
            simp only [List.getElem?_cons_succ, List.getElem?_cons_zero,
              Option.some.injEq] at hs ht
            subst hs
            have := ih0 t ht
            simp [this]
          | succ k =>
            simp only [List.getElem?_cons_succ] at hs ht
            exact ihs k s t hs ht

/-- Each step of a run of `ladder_catches` decides it: a check that returns ends
the run with its value, a check that falls through is followed by another step
unless the fuel is used up. -/
theorem ladder_catches_log_step (fuel : Nat) (p : playout_policy) (b : board) (coord : coord_t)
    (laddered : group_t) (i : Nat) (s : lstep)
    (hs : (ladder_catches_log fuel p b coord laddered).2[i]? = some s) :
    (∀ r, step_check b (b.board_at laddered) (ladder_xd b (b.coord_x coord) (b.coord_y coord))
        (ladder_yd b (b.coord_x coord) (b.coord_y coord)) s = ctl.ret r →
      (ladder_catches_log fuel p b coord laddered).2.length = i + 1 ∧
        ladder_catches fuel p b coord laddered = some r) ∧
    (step_check b (b.board_at laddered) (ladder_xd b (b.coord_x coord) (b.coord_y coord))
        (ladder_yd b (b.coord_x coord) (b.coord_y coord)) s = ctl.next →
      i + 1 < (ladder_catches_log fuel p b coord laddered).2.length ∨
        ladder_catches fuel p b coord laddered = none) := by
  rw [← ladder_catches_log_fst]
  simp only [ladder_catches_log] at hs ⊢
  generalize ladder_xd b (b.coord_x coord) (b.coord_y coord) = xd at hs ⊢
  generalize ladder_yd b (b.coord_x coord) (b.coord_y coord) = yd at hs ⊢
  generalize b.coord_x coord = x at hs ⊢
  generalize b.coord_y coord = y at hs ⊢
  generalize b.board_at laddered = lcolor at hs ⊢
  split at hs
  · simp at hs
  · rename_i hgo
    rw [if_neg hgo]
    split at hs
    · rename_i hc
      rw [if_pos hc]
      have hsh : step_check b lcolor xd yd ⟨true, x + xd, y⟩ = ladder_horiz b lcolor xd yd x y := by
        simp [step_check, ladder_horiz]
      cases hh : ladder_horiz b lcolor xd yd x y with
      | ret r0 =>
        simp only [hh] at hs ⊢
        cases i with
        | zero =>
          simp only [List.getElem?_cons_zero, Option.some.injEq] at hs
          subst hs
          rw [hsh, hh]
          exact ⟨fun r hr => by cases hr; exact ⟨rfl, rfl⟩, fun h => by cases h⟩
        | succ j => simp at hs
      | next =>
        simp only [hh] at hs ⊢
        cases i with
        | zero =>
          simp only [List.getElem?_cons_zero, Option.some.injEq] at hs
          subst hs
          rw [hsh, hh]
          refine ⟨fun r hr => (by cases hr), fun _ => ?_⟩
          cases hr : (ladder_loop_log b lcolor xd yd fuel (x + xd) y).2 with
          | nil => exact Or.inr (ladder_loop_log_nil b lcolor xd yd fuel _ _ hr)
          | cons a l => exact Or.inl (by simp)
        | succ j =>
          simp only [List.getElem?_cons_succ] at hs
          obtain ⟨h1, h2⟩ := ladder_loop_log_step b lcolor xd yd fuel (x + xd) y j s hs
          refine ⟨fun r hr => ?_, fun hn => ?_⟩
          · obtain ⟨hl, hres⟩ := h1 r hr
            exact ⟨by simp only [List.length_cons, hl], hres⟩
          · rcases h2 hn with h | h
            · exact Or.inl (by simp only [List.length_cons]; omega)
            · exact Or.inr h
    · rename_i hc
      rw [if_neg hc]
      exact ladder_loop_log_step b lcolor xd yd fuel x y i s hs

/-- The first step of a run of `ladder_catches` is horizontal when the cell
(x - xd, y) is a catcher and vertical otherwise; then the steps alternate, each
advancing one coordinate by its direction. -/
theorem ladder_catches_log_alternate (fuel : Nat) (p : playout_policy) (b : board)
    (coord : coord_t) (laddered : group_t) :
    (∀ s, (ladder_catches_log fuel p b coord laddered).2[0]? = some s →
      s = if ladder_catcher b
            (b.coord_x coord - ladder_xd b (b.coord_x coord) (b.coord_y coord)) (b.coord_y coord)
            (b.board_at laddered)
          then ⟨true, b.coord_x coord + ladder_xd b (b.coord_x coord) (b.coord_y coord),
            b.coord_y coord⟩
          else ⟨false, b.coord_x coord,
            b.coord_y coord + ladder_yd b (b.coord_x coord) (b.coord_y coord)⟩) ∧
    (∀ (i : Nat) (s t : lstep), (ladder_catches_log fuel p b coord laddered).2[i]? = some s →
      (ladder_catches_log fuel p b coord laddered).2[i + 1]? = some t →
      t = if s.horiz
          then ⟨false, s.x, s.y + ladder_yd b (b.coord_x coord) (b.coord_y coord)⟩
          else ⟨true, s.x + ladder_xd b (b.coord_x coord) (b.coord_y coord), s.y⟩) := by
  simp only [ladder_catches_log]
  generalize ladder_xd b (b.coord_x coord) (b.coord_y coord) = xd
  generalize ladder_yd b (b.coord_x coord) (b.coord_y coord) = yd
  generalize b.coord_x coord = x
  generalize b.coord_y coord = y
  generalize b.board_at laddered = lcolor
  split
  · simp
  · split
    · rename_i hc
      obtain ⟨l0, ls⟩ := ladder_loop_log_alternate b lcolor xd yd fuel (x + xd) y
      cases hh : ladder_horiz b lcolor xd yd x y with
      | ret r0 =>
        refine ⟨fun s hs => by simpa [hc] using hs.symm, fun i s t hs ht => by simp at ht⟩
      | next =>
        refine ⟨fun s hs => by simpa [hc] using hs.symm, fun i s t hs ht => ?_⟩
        cases i with
        | zero =>
          simp only [List.getElem?_cons_zero, Option.some.injEq, Nat.zero_add,
            List.getElem?_cons_succ] at hs ht
          subst hs
          have := l0 t ht
          simp [this]
        | succ j =>
          simp only [List.getElem?_cons_succ] at hs ht
          exact ls j s t hs ht
    · rename_i hc
      obtain ⟨l0, ls⟩ := ladder_loop_log_alternate b lcolor xd yd fuel x y
      exact ⟨l0, ls⟩

/-- When the direction or parity test fails no step is taken. -/
theorem ladder_catches_log_fail (fuel : Nat) (p : playout_policy) (b : board) (coord : coord_t)
    (laddered : group_t)
    (h : (ladder_xd b (b.coord_x coord) (b.coord_y coord) == 0
      || ladder_yd b (b.coord_x coord) (b.coord_y coord) == 0
      || !(xor
        (ladder_catcher b
          (b.coord_x coord - ladder_xd b (b.coord_x coord) (b.coord_y coord)) (b.coord_y coord)
          (b.board_at laddered))
        (ladder_catcher b (b.coord_x coord)
          (b.coord_y coord - ladder_yd b (b.coord_x coord) (b.coord_y coord))
          (b.board_at laddered)))) = true) :
    ladder_catches_log fuel p b coord laddered = (some false, []) := by
  simp only [ladder_catches_log]
  rw [if_pos h]

/-- A run that returns has a last step, whose check returned the value. -/
theorem ladder_catches_log_last (fuel : Nat) (p : playout_policy) (b : board) (coord : coord_t)
    (laddered : group_t) (r : Bool)
    (hne : (ladder_catches_log fuel p b coord laddered).2 ≠ [])
    (hr : ladder_catches fuel p b coord laddered = some r) :
    ∃ s, (ladder_catches_log fuel p b coord laddered).2[
        (ladder_catches_log fuel p b coord laddered).2.length - 1]? = some s ∧
      step_check b (b.board_at laddered) (ladder_xd b (b.coord_x coord) (b.coord_y coord))
        (ladder_yd b (b.coord_x coord) (b.coord_y coord)) s = ctl.ret r := by
  have hlen : 0 < (ladder_catches_log fuel p b coord laddered).2.length :=
    List.length_pos.mpr hne
  obtain ⟨s, hs⟩ : ∃ s, (ladder_catches_log fuel p b coord laddered).2[
      (ladder_catches_log fuel p b coord laddered).2.length - 1]? = some s := by
    rw [List.getElem?_eq_getElem (by omega)]
    exact ⟨_, rfl⟩
  refine ⟨s, hs, ?_⟩
  obtain ⟨h1, h2⟩ := ladder_catches_log_step fuel p b coord laddered _ s hs
  cases hc : step_check b (b.board_at laddered) (ladder_xd b (b.coord_x coord) (b.coord_y coord))
      (ladder_yd b (b.coord_x coord) (b.coord_y coord)) s with
  | ret r0 =>
    obtain ⟨_, hres⟩ := h1 r0 hc
    rw [hr] at hres
    cases hres
    rfl
  | next =>
    rcases h2 hc with h | h
    · omega
    · rw [hr] at h
      cases h

/-! ## What a step decides -/

theorem step_check_catcher (b : board) (lcolor : stone) (xd yd : Int) (s : lstep)
    (hne : b.board_atxy s.x s.y ≠ S_NONE)
    (hc : b.board_atxy s.x s.y = stone_other lcolor ∨ b.board_atxy s.x s.y = S_OFFBOARD) :
    step_check b lcolor xd yd s = ctl.ret true := by
  have hcat : ladder_catcher b s.x s.y lcolor = true := by
    simp only [ladder_catcher, Bool.or_eq_true, beq_iff_eq]
    exact hc
  unfold step_check ladder_check
  split <;> simp [hne, hcat]

theorem step_check_stone (b : board) (lcolor : stone) (xd yd : Int) (s : lstep)
    (hne : b.board_atxy s.x s.y ≠ S_NONE)
    (hc : ¬ (b.board_atxy s.x s.y = stone_other lcolor ∨ b.board_atxy s.x s.y = S_OFFBOARD)) :
    step_check b lcolor xd yd s =
      if 0 < (b.board_group_info (b.group_atxy s.x s.y)).lib 0 then ctl.ret false
      else ctl.next := by
  have hcat : ladder_catcher b s.x s.y lcolor = false := by
    rw [← Bool.not_eq_true]
    simp only [ladder_catcher, Bool.or_eq_true, beq_iff_eq]
    exact hc
  unfold step_check ladder_check
  split <;> simp [hne, hcat]

theorem step_check_empty (b : board) (lcolor : stone) (xd yd : Int) (s : lstep)
    (he : b.board_atxy s.x s.y = S_NONE) :
    step_check b lcolor xd yd s =
      if b.board_atxy (step_ahead xd yd s).1 (step_ahead xd yd s).2 = lcolor then ctl.ret false
      else if b.board_atxy (step_ahead xd yd s).1 (step_ahead xd yd s).2 = stone_other lcolor
        then ctl.ret true
      else if b.board_atxy (step_behind xd yd s).1 (step_behind xd yd s).2 = lcolor
        then ctl.ret false
      else ctl.next := by
  have e1 : s.x + -2 * xd = s.x - 2 * xd := by ring
  have e2 : s.y + -2 * yd = s.y - 2 * yd := by ring
  unfold step_check ladder_check step_ahead step_behind
  split
  · simp only [he, bne_self_eq_false, Bool.false_eq_true, if_false, beq_iff_eq, add_zero, e1,
      if_true]
  · simp only [he, bne_self_eq_false, Bool.false_eq_true, if_false, beq_iff_eq, add_zero, e2]

theorem stone_other_ne (lcolor : stone) (h : lcolor = S_BLACK ∨ lcolor = S_WHITE) :
    stone_other lcolor ≠ lcolor := by
  rcases h with h | h <;> subst h <;> decide

/-- When the direction and parity tests pass and there is fuel, a step is
taken. -/
theorem ladder_catches_log_ne_nil (fuel : Nat) (p : playout_policy) (b : board)
    (coord : coord_t) (laddered : group_t)
    (hgo : (ladder_xd b (b.coord_x coord) (b.coord_y coord) == 0
      || ladder_yd b (b.coord_x coord) (b.coord_y coord) == 0
      || !(xor
        (ladder_catcher b
          (b.coord_x coord - ladder_xd b (b.coord_x coord) (b.coord_y coord)) (b.coord_y coord)
          (b.board_at laddered))
        (ladder_catcher b (b.coord_x coord)
          (b.coord_y coord - ladder_yd b (b.coord_x coord) (b.coord_y coord))
          (b.board_at laddered)))) = false)
    (hf : 0 < fuel) : (ladder_catches_log fuel p b coord laddered).2 ≠ [] := by
  obtain ⟨f, rfl⟩ : ∃ f, fuel = f + 1 := ⟨fuel - 1, by omega⟩
  simp only [ladder_catches_log, hgo, Bool.false_eq_true, if_false]
  split
  · split <;> simp
  · simp only [ladder_loop_log]
    split
    · simp
    · split <;> simp

/-- When the direction and parity tests pass, a run that returns has taken a
step. -/
theorem ladder_catches_log_ne_nil_of_some (fuel : Nat) (p : playout_policy) (b : board)
    (coord : coord_t) (laddered : group_t) (r : Bool)
    (hgo : (ladder_xd b (b.coord_x coord) (b.coord_y coord) == 0
      || ladder_yd b (b.coord_x coord) (b.coord_y coord) == 0
      || !(xor
        (ladder_catcher b
          (b.coord_x coord - ladder_xd b (b.coord_x coord) (b.coord_y coord)) (b.coord_y coord)
          (b.board_at laddered))
        (ladder_catcher b (b.coord_x coord)
          (b.coord_y coord - ladder_yd b (b.coord_x coord) (b.coord_y coord))
          (b.board_at laddered)))) = false)
    (hr : ladder_catches fuel p b coord laddered = some r) :
    (ladder_catches_log fuel p b coord laddered).2 ≠ [] := by
  cases fuel with
  | succ f => exact ladder_catches_log_ne_nil (f + 1) p b coord laddered hgo (Nat.succ_pos f)
  | zero =>
    simp only [ladder_catches, hgo, Bool.false_eq_true, if_false] at hr
    simp only [ladder_catches_log, hgo, Bool.false_eq_true, if_false]
    split
    · rename_i hc
      split <;> simp
    · rename_i hc
      rw [if_neg hc] at hr
      simp [ladder_loop] at hr

theorem step_check_ret_false (b : board) (lcolor : stone) (xd yd : Int) (s : lstep)
    (hcol : lcolor = S_BLACK ∨ lcolor = S_WHITE)
    (h : step_check b lcolor xd yd s = ctl.ret false) :
    b.board_atxy s.x s.y = lcolor ∨
      b.board_atxy (step_ahead xd yd s).1 (step_ahead xd yd s).2 = lcolor ∨
      b.board_atxy (step_behind xd yd s).1 (step_behind xd yd s).2 = lcolor := by
  by_cases he : b.board_atxy s.x s.y = S_NONE
  · rw [step_check_empty b lcolor xd yd s he] at h
    split at h
    · rename_i h1; exact Or.inr (Or.inl h1)
    · split at h
      · cases h
      · split at h
        · rename_i h3; exact Or.inr (Or.inr h3)
        · cases h
  · by_cases hc : b.board_atxy s.x s.y = stone_other lcolor ∨ b.board_atxy s.x s.y = S_OFFBOARD
    · rw [step_check_catcher b lcolor xd yd s he hc] at h
      cases h
    · left
      simp only [not_or] at hc
      obtain ⟨hc1, hc2⟩ := hc
      revert he hc1 hc2
      generalize b.board_atxy s.x s.y = cell
      rcases hcol with h' | h' <;> subst h' <;> cases cell <;> simp [stone_other]

theorem step_check_ret_true (b : board) (lcolor : stone) (xd yd : Int) (s : lstep)
    (h : step_check b lcolor xd yd s = ctl.ret true) :
    (b.board_atxy s.x s.y = stone_other lcolor ∨ b.board_atxy s.x s.y = S_OFFBOARD) ∨
      (b.board_atxy s.x s.y = S_NONE ∧
        b.board_atxy (step_ahead xd yd s).1 (step_ahead xd yd s).2 = stone_other lcolor) := by
  by_cases he : b.board_atxy s.x s.y = S_NONE
  · right
    refine ⟨he, ?_⟩
    rw [step_check_empty b lcolor xd yd s he] at h
    split at h
    · cases h
    · split at h
      · rename_i h2; exact h2
      · split at h <;> cases h
  · left
    by_contra hc
    rw [step_check_stone b lcolor xd yd s he hc] at h
    split at h <;> cases h

/-- A run of `ladder_catches` that passes the direction and parity tests and
returns false has found a stone of the laddered colour on the cell of a step or
on one of its two indirect-breaker cells. -/
theorem ladder_catches_false_found (fuel : Nat) (p : playout_policy) (b : board)
    (coord : coord_t) (laddered : group_t)
    (hcol : b.board_at laddered = S_BLACK ∨ b.board_at laddered = S_WHITE)
    (hgo : (ladder_xd b (b.coord_x coord) (b.coord_y coord) == 0
      || ladder_yd b (b.coord_x coord) (b.coord_y coord) == 0
      || !(xor
        (ladder_catcher b
          (b.coord_x coord - ladder_xd b (b.coord_x coord) (b.coord_y coord)) (b.coord_y coord)
          (b.board_at laddered))
        (ladder_catcher b (b.coord_x coord)
          (b.coord_y coord - ladder_yd b (b.coord_x coord) (b.coord_y coord))
          (b.board_at laddered)))) = false)
    (hr : ladder_catches fuel p b coord laddered = some false) :
    ∃ s ∈ (ladder_catches_log fuel p b coord laddered).2,
      b.board_atxy s.x s.y = b.board_at laddered ∨
      b.board_atxy
          (step_ahead (ladder_xd b (b.coord_x coord) (b.coord_y coord))
            (ladder_yd b (b.coord_x coord) (b.coord_y coord)) s).1
          (step_ahead (ladder_xd b (b.coord_x coord) (b.coord_y coord))
            (ladder_yd b (b.coord_x coord) (b.coord_y coord)) s).2 = b.board_at laddered ∨
      b.board_atxy
          (step_behind (ladder_xd b (b.coord_x coord) (b.coord_y coord))
            (ladder_yd b (b.coord_x coord) (b.coord_y coord)) s).1
          (step_behind (ladder_xd b (b.coord_x coord) (b.coord_y coord))
            (ladder_yd b (b.coord_x coord) (b.coord_y coord)) s).2 = b.board_at laddered := by
  have hne := ladder_catches_log_ne_nil_of_some fuel p b coord laddered false hgo hr
  obtain ⟨s, hs, hchk⟩ := ladder_catches_log_last fuel p b coord laddered false hne hr
  exact ⟨s, List.getElem?_mem hs, step_check_ret_false b _ _ _ s hcol hchk⟩

/-- With directions (-1, 1) every step of the loop entered at (x, y) lands above
row y and not east of column x, a horizontal step strictly west of it. -/
theorem ladder_loop_log_northwest (b : board) (lcolor : stone) :
    ∀ (fuel : Nat) (x y : Int), ∀ s ∈ (ladder_loop_log b lcolor (-1) 1 fuel x y).2,
      y + 1 ≤ s.y ∧ s.x ≤ x ∧ (s.horiz = true → s.x + 1 ≤ x) := by
  intro fuel
  induction fuel with
  | zero => intro x y s hs; simp [ladder_loop_log] at hs
  | succ n ih =>
    intro x y s hs
    simp only [ladder_loop_log] at hs
    cases hv : ladder_vert b lcolor (-1) 1 x y with
    | ret r =>
      simp only [hv, List.mem_singleton] at hs
      subst hs
      simp
    | next =>
      simp only [hv] at hs
      cases hh : ladder_horiz b lcolor (-1) 1 x (y + 1) with
      | ret r =>
        simp only [hh, List.mem_cons, List.mem_singleton, List.not_mem_nil, or_false] at hs
        rcases hs with rfl | rfl <;> simp
      | next =>
        simp only [hh, List.mem_cons] at hs
        rcases hs with rfl | rfl | hs
        · simp
        · simp
        · obtain ⟨h1, h2, h3⟩ := ih (x + -1) (y + 1) s hs
          exact ⟨by omega, by omega, fun h => by have := h3 h; omega⟩

/-! ## The cells read -/

theorem ladder_loop_reads_fst (b : board) (lcolor : stone) (xd yd : Int) :
    ∀ (fuel : Nat) (x y : Int),
      (ladder_loop_reads b lcolor xd yd fuel x y).1 = ladder_loop b lcolor xd yd fuel x y := by
  intro fuel
  induction fuel with
  | zero => intro x y; rfl
  | succ n ih =>
    intro x y
    simp only [ladder_loop_reads, ladder_loop]
    cases ladder_vert b lcolor xd yd x y with
    | ret r => rfl
    | next =>
      cases ladder_horiz b lcolor xd yd x (y + yd) with
      | ret r => rfl
      | next => exact ih _ _

theorem ladder_catches_reads_fst (fuel : Nat) (p : playout_policy) (b : board) (coord : coord_t)
    (laddered : group_t) :
    (ladder_catches_reads fuel p b coord laddered).1 = ladder_catches fuel p b coord laddered := by
  simp only [ladder_catches_reads, ladder_catches]
  by_cases h1 : (ladder_xd b (b.coord_x coord) (b.coord_y coord) == 0
      || ladder_yd b (b.coord_x coord) (b.coord_y coord) == 0) = true
  · simp only [h1, if_true, Bool.true_or]
  · rw [if_neg h1]
    rw [Bool.not_eq_true] at h1
    rw [h1, Bool.false_or]
    split
    · rfl
    · split
      · cases ladder_horiz b (b.board_at laddered)
          (ladder_xd b (b.coord_x coord) (b.coord_y coord))
          (ladder_yd b (b.coord_x coord) (b.coord_y coord)) (b.coord_x coord)
          (b.coord_y coord) with
        | ret r => rfl
        | next => exact ladder_loop_reads_fst _ _ _ _ _ _ _
      · exact ladder_loop_reads_fst _ _ _ _ _ _ _

/-- On a bordered board a check made on a cell of the grid reads cells of the
grid only, provided its two indirect-breaker cells are in the grid whenever the
cell lies strictly inside the border. -/
theorem ladder_check_reads_in_grid (b : board) (S : Nat) (hb : bordered b S) (lcolor : stone)
    (x y xd1 yd1 xd2 yd2 : Int) (hx0 : 0 ≤ x) (hx1 : x ≤ (S : Int) - 1) (hy0 : 0 ≤ y)
    (hy1 : y ≤ (S : Int) - 1)
    (hin : 1 ≤ x → x + 2 ≤ S → 1 ≤ y → y + 2 ≤ S →
      in_grid S (x + xd1, y + yd1) ∧ in_grid S (x + xd2, y + yd2)) :
    ∀ c ∈ ladder_check_reads b lcolor x y xd1 yd1 xd2 yd2, in_grid S c := by
  have hself : in_grid S (x, y) := ⟨hx0, hx1, hy0, hy1⟩
  intro c hc
  unfold ladder_check_reads at hc
  by_cases he : b.board_atxy x y = S_NONE
  · have hint : 1 ≤ x ∧ x + 2 ≤ S ∧ 1 ≤ y ∧ y + 2 ≤ S := by
      by_contra hcon
      have := hb x y hx0 (by omega) hy0 (by omega) (by omega)
      rw [he] at this
      cases this
    obtain ⟨h1, h2⟩ := hin hint.1 hint.2.1 hint.2.2.1 hint.2.2.2
    simp only [he, bne_self_eq_false, Bool.false_eq_true, if_false] at hc
    split at hc
    · simp only [List.mem_cons, List.mem_singleton, List.not_mem_nil, or_false] at hc
      rcases hc with rfl | rfl
      · exact hself
      · exact h1
    · split at hc
      · simp only [List.mem_cons, List.mem_singleton, List.not_mem_nil, or_false] at hc
        rcases hc with rfl | rfl
        · exact hself
        · exact h1
      · simp only [List.mem_cons, List.mem_singleton, List.not_mem_nil, or_false] at hc
        rcases hc with rfl | rfl | rfl
        · exact hself
        · exact h1
        · exact h2
  · have hne : (b.board_atxy x y != S_NONE) = true := by simpa using he
    simp only [hne, if_true] at hc
    split at hc
    · simp only [List.mem_cons, List.mem_singleton, List.not_mem_nil, or_false] at hc
      rcases hc with rfl | rfl <;> exact hself
    · simp only [List.mem_cons, List.mem_singleton, List.not_mem_nil, or_false] at hc
      rcases hc with rfl | rfl | rfl <;> exact hself

/-- On a bordered board a check that falls through was made strictly inside the
border. -/
theorem ladder_check_next_inside (b : board) (S : Nat) (hb : bordered b S) (lcolor : stone)
    (x y xd1 yd1 xd2 yd2 : Int) (hx0 : 0 ≤ x) (hx1 : x ≤ (S : Int) - 1) (hy0 : 0 ≤ y)
    (hy1 : y ≤ (S : Int) - 1)
    (h : ladder_check b lcolor x y xd1 yd1 xd2 yd2 = ctl.next) :
    1 ≤ x ∧ x + 2 ≤ S ∧ 1 ≤ y ∧ y + 2 ≤ S := by
  by_contra hcon
  have hoff := hb x y hx0 (by omega) hy0 (by omega) (by omega)
  rw [ladder_check_offboard b lcolor x y xd1 yd1 xd2 yd2 hoff] at h
  cases h

theorem ladder_loop_reads_in_grid (b : board) (S : Nat) (hb : bordered b S) (lcolor : stone)
    (xd yd : Int) (hxd : xd = 1 ∨ xd = -1) (hyd : yd = 1 ∨ yd = -1) :
    ∀ (fuel : Nat) (x y : Int), 1 ≤ x → x + 2 ≤ S → 1 ≤ y → y + 2 ≤ S →
      ∀ c ∈ (ladder_loop_reads b lcolor xd yd fuel x y).2, in_grid S c := by
  intro fuel
  induction fuel with
  | zero => intro x y _ _ _ _ c hc; simp [ladder_loop_reads] at hc
  | succ n ih =>
    intro x y h1 h2 h3 h4 c hc
    have hv := ladder_check_reads_in_grid b S hb lcolor x (y + yd) 0 yd xd (-2 * yd)
      (by omega) (by omega) (by omega) (by omega) (fun _ _ _ _ => by
        simp only [in_grid]; omega)
    simp only [ladder_loop_reads] at hc
    cases hvr : ladder_vert b lcolor xd yd x y with
    | ret r =>
      simp only [hvr] at hc
      exact hv c hc
    | next =>
      simp only [hvr] at hc
      have hvin := ladder_check_next_inside b S hb lcolor x (y + yd) 0 yd xd (-2 * yd)
        (by omega) (by omega) (by omega) (by omega) hvr
      have hh := ladder_check_reads_in_grid b S hb lcolor (x + xd) (y + yd) xd 0 (-2 * xd) yd
        (by omega) (by omega) (by omega) (by omega) (fun _ _ _ _ => by
          simp only [in_grid]; omega)
      cases hhr : ladder_horiz b lcolor xd yd x (y + yd) with
      | ret r =>
        simp only [hhr, List.mem_append] at hc
        rcases hc with hc | hc
        · exact hv c hc
        · exact hh c hc
      | next =>
        simp only [hhr, List.mem_append] at hc
        have hhin := ladder_check_next_inside b S hb lcolor (x + xd) (y + yd) xd 0 (-2 * xd) yd
          (by omega) (by omega) (by omega) (by omega) hhr
        rcases hc with hc | hc | hc
        · exact hv c hc
        · exact hh c hc
        · exact ih (x + xd) (y + yd) hhin.1 hhin.2.1 hhin.2.2.1 hhin.2.2.2 c hc

theorem ladder_dir_reads_in_grid (b : board) (S : Nat) (x y : Int) (hx1 : 1 ≤ x)
    (hx2 : x + 2 ≤ S) (hy1 : 1 ≤ y) (hy2 : y + 2 ≤ S) :
    ∀ c ∈ ladder_xd_reads b x y ++ ladder_yd_reads b x y, in_grid S c := by
  intro c hc
  simp only [ladder_xd_reads, ladder_yd_reads, List.mem_append] at hc
  rcases hc with hc | hc
  · split at hc
    · simp only [List.mem_singleton] at hc
      subst hc
      simp only [in_grid]; omega
    · simp only [List.mem_cons, List.mem_singleton, List.not_mem_nil, or_false] at hc
      rcases hc with rfl | rfl <;> (simp only [in_grid]; omega)
  · split at hc
    · simp only [List.mem_singleton] at hc
      subst hc
      simp only [in_grid]; omega
    · simp only [List.mem_cons, List.mem_singleton, List.not_mem_nil, or_false] at hc
      rcases hc with rfl | rfl <;> (simp only [in_grid]; omega)

theorem support_board_bordered : bordered support_board 7 := by
  intro x y hx0 hx1 hy0 hy1 h
  simp only [support_board, grid_board, grid_cell]
  rw [if_pos]
  push_cast at h hx1 hy1
  omega

theorem support_board_on_board : on_board support_board 7 24 := by
  simp [on_board, support_board, grid_board]

theorem support_board_only (x y : Int)
    (h : support_board.board_atxy x y = support_board.board_at 25) :
    support_board.coord_x 24 < x ∧ y ≤ support_board.coord_y 24 + 1 := by
  have hL : support_board.board_at 25 = S_BLACK := by decide
  have hx : support_board.coord_x 24 = 3 := by decide
  have hy : support_board.coord_y 24 = 3 := by decide
  rw [hL] at h
  rw [hx, hy]
  have hin : 1 ≤ x ∧ x ≤ 5 ∧ 1 ≤ y ∧ y ≤ 5 := by
    by_contra hout
    simp only [support_board, grid_board, grid_cell] at h
    rw [if_pos (by omega)] at h
    cases h
  obtain ⟨hx1, hx5, hy1, hy5⟩ := hin
  interval_cases x <;> interval_cases y <;>
    first
      | (exfalso; revert h; decide)
      | (constructor <;> decide)

/-! # The claims, continued -/

/-- C11: when the two catcher cells (x - dx, y) and (x, y - dy) are both
catchers or both non-catchers, `ladder_catches` returns false, for every fuel
and without taking a step, whatever else the board holds; this covers every
pair of non-zero escape directions. -/
theorem C11_parity_failure (fuel : Nat) (p : playout_policy) (b : board) (coord : coord_t)
    (laddered : group_t)
    (hpar :
      (ladder_catcher b
          (b.coord_x coord - ladder_xd b (b.coord_x coord) (b.coord_y coord)) (b.coord_y coord)
          (b.board_at laddered) = true ∧
        ladder_catcher b (b.coord_x coord)
          (b.coord_y coord - ladder_yd b (b.coord_x coord) (b.coord_y coord))
          (b.board_at laddered) = true) ∨
      (ladder_catcher b
          (b.coord_x coord - ladder_xd b (b.coord_x coord) (b.coord_y coord)) (b.coord_y coord)
          (b.board_at laddered) = false ∧
        ladder_catcher b (b.coord_x coord)
          (b.coord_y coord - ladder_yd b (b.coord_x coord) (b.coord_y coord))
          (b.board_at laddered) = false)) :
    ladder_catches fuel p b coord laddered = some false ∧
      ladder_catches_log fuel p b coord laddered = (some false, []) := by
  have hlog := ladder_catches_log_fail fuel p b coord laddered (by
    rcases hpar with ⟨h1, h2⟩ | ⟨h1, h2⟩ <;> simp [h1, h2])
  refine ⟨?_, hlog⟩
  rw [← ladder_catches_log_fst, hlog]

/-- Witness of C11 on `lone_board`: at the liberty (3,2) of the lone stone the
directions are (1, -1) and neither (2,2) nor (3,3) is a catcher. -/
theorem C11_witness :
    ladder_xd lone_board (lone_board.coord_x 17) (lone_board.coord_y 17) ≠ 0 ∧
    ladder_yd lone_board (lone_board.coord_x 17) (lone_board.coord_y 17) ≠ 0 ∧
    ladder_catches 7 ⟨0⟩ lone_board 17 24 = some false :=
  ⟨by decide, by decide,
    (C11_parity_failure 7 ⟨0⟩ lone_board 17 24 (Or.inr ⟨by decide, by decide⟩)).1⟩

/-- Counterexample to C12: on the board as described, with a white stone north
of the liberty (3,3) (on (3,4), or on (3,2) if rows are counted the other way),
the laddered black stone east of it and a white stone west of it, the rest
empty, `ladder_catches` returns false, not true: the liberty has no empty
horizontal neighbour. -/
theorem C12_counterexample :
    (pincer_board 4).board_atxy 3 4 = stone_other ((pincer_board 4).board_at 25) ∧
    (pincer_board 4).board_atxy 4 3 = (pincer_board 4).board_at 25 ∧
    (pincer_board 4).board_atxy 2 3 = stone_other ((pincer_board 4).board_at 25) ∧
    (pincer_board 4).board_atxy 3 3 = S_NONE ∧
    ladder_catches 7 ⟨0⟩ (pincer_board 4) 24 25 = some false ∧
    ladder_catches 7 ⟨0⟩ (pincer_board 4) 24 25 ≠ some true ∧
    (pincer_board 2).board_atxy 3 2 = stone_other ((pincer_board 2).board_at 25) ∧
    ladder_catches 7 ⟨0⟩ (pincer_board 2) 24 25 = some false ∧
    ladder_catches 7 ⟨0⟩ (pincer_board 2) 24 25 ≠ some true := by
  decide

/-- The "supported" position of the comment in `ladder_catches` is caught: on a
board of side `S` with off-board border, with the
laddered stone directly east of the liberty (x, y), the cells west and north of
the liberty empty, a hostile stone or the edge on the cell south of it, and no
stone of the laddered colour in column x or west of it nor above row y + 1,
`ladder_catches` returns true for every fuel of at least `S - 2`. -/
theorem supported_ladder_caught (p : playout_policy) (b : board) (S : Nat)
    (coord : coord_t) (laddered : group_t) (hb : bordered b S) (hc : on_board b S coord)
    (hcol : b.board_at laddered = S_BLACK ∨ b.board_at laddered = S_WHITE)
    (heast : b.board_atxy (b.coord_x coord + 1) (b.coord_y coord) = b.board_at laddered)
    (hwest : b.board_atxy (b.coord_x coord - 1) (b.coord_y coord) = S_NONE)
    (hnorth : b.board_atxy (b.coord_x coord) (b.coord_y coord + 1) = S_NONE)
    (hsouth : b.board_atxy (b.coord_x coord) (b.coord_y coord - 1) =
        stone_other (b.board_at laddered) ∨
      b.board_atxy (b.coord_x coord) (b.coord_y coord - 1) = S_OFFBOARD)
    (honly : ∀ x y : Int, b.board_atxy x y = b.board_at laddered →
      b.coord_x coord < x ∧ y ≤ b.coord_y coord + 1) :
    ∀ fuel, S - 2 ≤ fuel → ladder_catches fuel p b coord laddered = some true := by
  have hLne : b.board_at laddered ≠ S_NONE := by
    rcases hcol with h | h <;> rw [h] <;> decide
  have hLoff : b.board_at laddered ≠ S_OFFBOARD := by
    rcases hcol with h | h <;> rw [h] <;> decide
  have hxd : ladder_xd b (b.coord_x coord) (b.coord_y coord) = -1 := by
    simp [ladder_xd, heast, hwest, hLne]
  have hyd : ladder_yd b (b.coord_x coord) (b.coord_y coord) = 1 := by
    simp [ladder_yd, hnorth]
  have hc1 : ladder_catcher b (b.coord_x coord - -1) (b.coord_y coord) (b.board_at laddered)
      = false := by
    have e : b.coord_x coord - -1 = b.coord_x coord + 1 := by ring
    rw [← Bool.not_eq_true]
    simp only [ladder_catcher, e, heast, Bool.or_eq_true, beq_iff_eq, not_or]
    exact ⟨fun h => stone_other_ne _ hcol h.symm, hLoff⟩
  have hc2 : ladder_catcher b (b.coord_x coord) (b.coord_y coord - 1) (b.board_at laddered)
      = true := by
    simp only [ladder_catcher, Bool.or_eq_true, beq_iff_eq]
    exact hsouth
  have hgo : (ladder_xd b (b.coord_x coord) (b.coord_y coord) == 0
      || ladder_yd b (b.coord_x coord) (b.coord_y coord) == 0
      || !(xor
        (ladder_catcher b
          (b.coord_x coord - ladder_xd b (b.coord_x coord) (b.coord_y coord)) (b.coord_y coord)
          (b.board_at laddered))
        (ladder_catcher b (b.coord_x coord)
          (b.coord_y coord - ladder_yd b (b.coord_x coord) (b.coord_y coord))
          (b.board_at laddered)))) = false := by
    rw [hxd, hyd, hc1, hc2]
    decide
  obtain ⟨r, tr, hrun, -⟩ := ladder_catches_log_bordered b S hb p coord laddered hc
  have hres : ∀ f, S - 2 ≤ f → ladder_catches f p b coord laddered = some r := by
    intro f hf'
    rw [← ladder_catches_log_fst, hrun f hf']
  intro fuel hf
  rw [hres fuel hf]
  cases r with
  | true => rfl
  | false =>
    exfalso
    obtain ⟨s, hs, hfound⟩ := ladder_catches_false_found (S - 2) p b coord laddered hcol hgo
      (hres (S - 2) (Nat.le_refl _))
    have hlog : (ladder_catches_log (S - 2) p b coord laddered).2 =
        (ladder_loop_log b (b.board_at laddered) (-1) 1 (S - 2) (b.coord_x coord)
          (b.coord_y coord)).2 := by
      simp only [ladder_catches_log, hgo, Bool.false_eq_true, if_false]
      rw [hxd, hyd]
      simp only [hc1, Bool.false_eq_true, if_false]
    rw [hlog] at hs
    obtain ⟨h1, h2, h3⟩ := ladder_loop_log_northwest b (b.board_at laddered) (S - 2)
      (b.coord_x coord) (b.coord_y coord) s hs
    rw [hxd, hyd] at hfound
    rcases hfound with h | h | h
    · have := honly _ _ h
      omega
    · have := honly _ _ h
      revert this
      unfold step_ahead
      split <;> intro this <;> simp only at this <;> omega
    · have := honly _ _ h
      revert this
      unfold step_behind
      split
      · rename_i hh
        have := h3 hh
        intro this
        simp only at this
        omega
      · intro this
        simp only at this
        omega

/-- The preceding theorem applied to `support_board`. -/
theorem supported_ladder_caught_example :
    bordered support_board 7 ∧ on_board support_board 7 24 ∧
    support_board.board_atxy (support_board.coord_x 24 + 1) (support_board.coord_y 24) =
      support_board.board_at 25 ∧
    ladder_catches 7 ⟨0⟩ support_board 24 25 = some true :=
  ⟨support_board_bordered, support_board_on_board, by decide,
    supported_ladder_caught ⟨0⟩ support_board 7 24 25 support_board_bordered
      support_board_on_board (by decide) (by decide) (by decide) (by decide) (Or.inl (by decide))
      support_board_only 7 (by decide)⟩

/-- C12 as amended: on every board with the laddered stone directly east of the
liberty cell and a hostile stone directly west of it, whatever stands north of
the liberty, on the catcher cells and on the rest of the board,
`ladder_catches` returns false, for every fuel and without taking a step: the
liberty has no empty horizontal neighbour. -/
theorem C12_pincer_not_caught (fuel : Nat) (p : playout_policy) (b : board) (coord : coord_t)
    (laddered : group_t)
    (hcol : b.board_at laddered = S_BLACK ∨ b.board_at laddered = S_WHITE)
    (heast : b.board_atxy (b.coord_x coord + 1) (b.coord_y coord) = b.board_at laddered)
    (hwest : b.board_atxy (b.coord_x coord - 1) (b.coord_y coord) =
      stone_other (b.board_at laddered)) :
    ladder_catches fuel p b coord laddered = some false ∧
      ladder_catches_log fuel p b coord laddered = (some false, []) := by
  have hLne : b.board_at laddered ≠ S_NONE := by
    rcases hcol with h | h <;> rw [h] <;> decide
  have hOne : stone_other (b.board_at laddered) ≠ S_NONE := by
    rcases hcol with h | h <;> rw [h] <;> decide
  have hxd : ladder_xd b (b.coord_x coord) (b.coord_y coord) = 0 := by
    simp [ladder_xd, heast, hwest, hLne, hOne]
  have hlog := ladder_catches_log_fail fuel p b coord laddered (by simp [hxd])
  refine ⟨?_, hlog⟩
  rw [← ladder_catches_log_fst, hlog]

/-- Witness of C12 as amended on `pincer_board`, with the white stone north of
the liberty on (3,4). -/
theorem C12_witness :
    ((pincer_board 4).board_at 25 = S_BLACK ∨ (pincer_board 4).board_at 25 = S_WHITE) ∧
    (pincer_board 4).board_atxy ((pincer_board 4).coord_x 24 + 1) ((pincer_board 4).coord_y 24) =
      (pincer_board 4).board_at 25 ∧
    (pincer_board 4).board_atxy ((pincer_board 4).coord_x 24 - 1) ((pincer_board 4).coord_y 24) =
      stone_other ((pincer_board 4).board_at 25) ∧
    ladder_catches 7 ⟨0⟩ (pincer_board 4) 24 25 = some false :=
  ⟨by decide, by decide, by decide,
    (C12_pincer_not_caught 7 ⟨0⟩ (pincer_board 4) 24 25 (by decide) (by decide) (by decide)).1⟩

/-- C13: if neither (x+1, y) nor (x-1, y) is empty, or neither (x, y+1) nor
(x, y-1) is empty, `ladder_catches` returns false and takes no step.  The
direction on an axis is +1 exactly when the positive-side neighbour is empty,
-1 exactly when the positive-side neighbour is not empty and the negative-side
one is, and 0 exactly when neither is empty. -/
theorem C13_directions (fuel : Nat) (p : playout_policy) (b : board) (coord : coord_t)
    (laddered : group_t) :
    (((b.board_atxy (b.coord_x coord + 1) (b.coord_y coord) ≠ S_NONE ∧
          b.board_atxy (b.coord_x coord - 1) (b.coord_y coord) ≠ S_NONE) ∨
        (b.board_atxy (b.coord_x coord) (b.coord_y coord + 1) ≠ S_NONE ∧
          b.board_atxy (b.coord_x coord) (b.coord_y coord - 1) ≠ S_NONE)) →
      ladder_catches fuel p b coord laddered = some false ∧
        ladder_catches_log fuel p b coord laddered = (some false, [])) ∧
    (∀ x y : Int,
      (ladder_xd b x y = 1 ↔ b.board_atxy (x + 1) y = S_NONE) ∧
      (ladder_xd b x y = -1 ↔
        b.board_atxy (x + 1) y ≠ S_NONE ∧ b.board_atxy (x - 1) y = S_NONE) ∧
      (ladder_xd b x y = 0 ↔
        b.board_atxy (x + 1) y ≠ S_NONE ∧ b.board_atxy (x - 1) y ≠ S_NONE) ∧
      (ladder_yd b x y = 1 ↔ b.board_atxy x (y + 1) = S_NONE) ∧
      (ladder_yd b x y = -1 ↔
        b.board_atxy x (y + 1) ≠ S_NONE ∧ b.board_atxy x (y - 1) = S_NONE) ∧
      (ladder_yd b x y = 0 ↔
        b.board_atxy x (y + 1) ≠ S_NONE ∧ b.board_atxy x (y - 1) ≠ S_NONE)) := by
  have hdir : ∀ x y : Int,
      (ladder_xd b x y = 1 ↔ b.board_atxy (x + 1) y = S_NONE) ∧
      (ladder_xd b x y = -1 ↔
        b.board_atxy (x + 1) y ≠ S_NONE ∧ b.board_atxy (x - 1) y = S_NONE) ∧
      (ladder_xd b x y = 0 ↔
        b.board_atxy (x + 1) y ≠ S_NONE ∧ b.board_atxy (x - 1) y ≠ S_NONE) ∧
      (ladder_yd b x y = 1 ↔ b.board_atxy x (y + 1) = S_NONE) ∧
      (ladder_yd b x y = -1 ↔
        b.board_atxy x (y + 1) ≠ S_NONE ∧ b.board_atxy x (y - 1) = S_NONE) ∧
      (ladder_yd b x y = 0 ↔
        b.board_atxy x (y + 1) ≠ S_NONE ∧ b.board_atxy x (y - 1) ≠ S_NONE) := by
    intro x y
    unfold ladder_xd ladder_yd
    by_cases h1 : b.board_atxy (x + 1) y = S_NONE <;>
      by_cases h2 : b.board_atxy (x - 1) y = S_NONE <;>
      by_cases h3 : b.board_atxy x (y + 1) = S_NONE <;>
      by_cases h4 : b.board_atxy x (y - 1) = S_NONE <;>
      simp [h1, h2, h3, h4]
  refine ⟨fun h => ?_, hdir⟩
  obtain ⟨-, -, hx0, -, -, hy0⟩ := hdir (b.coord_x coord) (b.coord_y coord)
  have hlog := ladder_catches_log_fail fuel p b coord laddered (by
    rcases h with h | h
    · simp [hx0.mpr h]
    · simp [hy0.mpr h])
  refine ⟨?_, hlog⟩
  rw [← ladder_catches_log_fst, hlog]

/-- Witness of C13 on `pincer_board`: the liberty (3,3) has a stone on either
side, so the reader returns false at once. -/
theorem C13_witness :
    (pincer_board 4).board_atxy ((pincer_board 4).coord_x 24 + 1) ((pincer_board 4).coord_y 24)
      ≠ S_NONE ∧
    (pincer_board 4).board_atxy ((pincer_board 4).coord_x 24 - 1) ((pincer_board 4).coord_y 24)
      ≠ S_NONE ∧
    ladder_catches_log 7 ⟨0⟩ (pincer_board 4) 24 25 = (some false, []) :=
  ⟨by decide, by decide,
    ((C13_directions 7 ⟨0⟩ (pincer_board 4) 24 25).1 (Or.inl ⟨by decide, by decide⟩)).2⟩

/-- C14: at a step of `ladder_catches` that lands on a non-empty cell: if the
cell holds the colour hostile to the laddered colour or is off-board, the step
is the last one and the result is true; otherwise, if the group of the stone
there has more than one liberty (its record then holding a positive coordinate
as first liberty), the step is the last one and the result is false. -/
theorem C14_step_on_stone (fuel : Nat) (p : playout_policy) (b : board) (coord : coord_t)
    (laddered : group_t) (i : Nat) (s : lstep)
    (hs : (ladder_catches_log fuel p b coord laddered).2[i]? = some s)
    (hne : b.board_atxy s.x s.y ≠ S_NONE) :
    ((b.board_atxy s.x s.y = stone_other (b.board_at laddered) ∨
        b.board_atxy s.x s.y = S_OFFBOARD) →
      (ladder_catches_log fuel p b coord laddered).2.length = i + 1 ∧
        ladder_catches fuel p b coord laddered = some true) ∧
    (¬ (b.board_atxy s.x s.y = stone_other (b.board_at laddered) ∨
        b.board_atxy s.x s.y = S_OFFBOARD) →
      1 < (b.board_group_info (b.group_atxy s.x s.y)).libs →
      (1 ≤ (b.board_group_info (b.group_atxy s.x s.y)).libs →
        0 < (b.board_group_info (b.group_atxy s.x s.y)).lib 0) →
      (ladder_catches_log fuel p b coord laddered).2.length = i + 1 ∧
        ladder_catches fuel p b coord laddered = some false) := by
  obtain ⟨h1, -⟩ := ladder_catches_log_step fuel p b coord laddered i s hs
  refine ⟨fun hc => h1 true (step_check_catcher b _ _ _ s hne hc), fun hc hlibs hwf => ?_⟩
  refine h1 false ?_
  rw [step_check_stone b _ _ _ s hne hc, if_pos (hwf (by omega))]

/-- Witness of C14 on `breaker_board`: the third step lands on the black stone
at (3,3), which has four liberties, and the reader returns false. -/
theorem C14_witness :
    (ladder_catches_log 7 ⟨0⟩ breaker_board 15 8).2[2]? = some ⟨true, 3, 3⟩ ∧
    breaker_board.board_atxy 3 3 ≠ S_NONE ∧
    ladder_catches 7 ⟨0⟩ breaker_board 15 8 = some false :=
  ⟨by decide, by decide,
    ((C14_step_on_stone 7 ⟨0⟩ breaker_board 15 8 2 ⟨true, 3, 3⟩ (by decide) (by decide)).2
      (by decide) (by decide) (by decide)).2⟩

/-- C15: at a step of `ladder_catches` that lands on an empty cell, with the
ahead cell (x+dx, y) and the behind cell (x-2*dx, y+dy) after a horizontal step,
(x, y+dy) and (x+dx, y-2*dy) after a vertical one: the step is the last one with
result false if the ahead cell holds the laddered colour, with result true if it
holds the hostile colour, with result false if the ahead cell holds neither and
the behind cell holds the laddered colour; in every other case another step
follows (unless the fuel is used up). -/
theorem C15_step_on_empty (fuel : Nat) (p : playout_policy) (b : board) (coord : coord_t)
    (laddered : group_t) (i : Nat) (s : lstep)
    (hcol : b.board_at laddered = S_BLACK ∨ b.board_at laddered = S_WHITE)
    (hs : (ladder_catches_log fuel p b coord laddered).2[i]? = some s)
    (he : b.board_atxy s.x s.y = S_NONE) :
    (step_ahead (ladder_xd b (b.coord_x coord) (b.coord_y coord))
        (ladder_yd b (b.coord_x coord) (b.coord_y coord)) s =
      if s.horiz then (s.x + ladder_xd b (b.coord_x coord) (b.coord_y coord), s.y)
      else (s.x, s.y + ladder_yd b (b.coord_x coord) (b.coord_y coord))) ∧
    (step_behind (ladder_xd b (b.coord_x coord) (b.coord_y coord))
        (ladder_yd b (b.coord_x coord) (b.coord_y coord)) s =
      if s.horiz then (s.x - 2 * ladder_xd b (b.coord_x coord) (b.coord_y coord),
        s.y + ladder_yd b (b.coord_x coord) (b.coord_y coord))
      else (s.x + ladder_xd b (b.coord_x coord) (b.coord_y coord),
        s.y - 2 * ladder_yd b (b.coord_x coord) (b.coord_y coord))) ∧
    (∀ ahead behind : stone,
      ahead = b.board_atxy
          (step_ahead (ladder_xd b (b.coord_x coord) (b.coord_y coord))
            (ladder_yd b (b.coord_x coord) (b.coord_y coord)) s).1
          (step_ahead (ladder_xd b (b.coord_x coord) (b.coord_y coord))
            (ladder_yd b (b.coord_x coord) (b.coord_y coord)) s).2 →
      behind = b.board_atxy
          (step_behind (ladder_xd b (b.coord_x coord) (b.coord_y coord))
            (ladder_yd b (b.coord_x coord) (b.coord_y coord)) s).1
          (step_behind (ladder_xd b (b.coord_x coord) (b.coord_y coord))
            (ladder_yd b (b.coord_x coord) (b.coord_y coord)) s).2 →
      (ahead = b.board_at laddered →
        (ladder_catches_log fuel p b coord laddered).2.length = i + 1 ∧
          ladder_catches fuel p b coord laddered = some false) ∧
      (ahead = stone_other (b.board_at laddered) →
        (ladder_catches_log fuel p b coord laddered).2.length = i + 1 ∧
          ladder_catches fuel p b coord laddered = some true) ∧
      (ahead ≠ b.board_at laddered → ahead ≠ stone_other (b.board_at laddered) →
        behind = b.board_at laddered →
        (ladder_catches_log fuel p b coord laddered).2.length = i + 1 ∧
          ladder_catches fuel p b coord laddered = some false) ∧
      (ahead ≠ b.board_at laddered → ahead ≠ stone_other (b.board_at laddered) →
        behind ≠ b.board_at laddered →
        i + 1 < (ladder_catches_log fuel p b coord laddered).2.length ∨
          ladder_catches fuel p b coord laddered = none)) := by
  refine ⟨rfl, rfl, ?_⟩
  intro ahead behind ha hb
  obtain ⟨h1, h2⟩ := ladder_catches_log_step fuel p b coord laddered i s hs
  have hchk := step_check_empty b (b.board_at laddered)
    (ladder_xd b (b.coord_x coord) (b.coord_y coord))
    (ladder_yd b (b.coord_x coord) (b.coord_y coord)) s he
  rw [← ha, ← hb] at hchk
  refine ⟨fun h => ?_, fun h => ?_, fun n1 n2 h => ?_, fun n1 n2 n3 => ?_⟩
  · exact h1 false (by rw [hchk, if_pos h])
  · have hne : ahead ≠ b.board_at laddered := by
      rw [h]
      exact stone_other_ne _ hcol
    exact h1 true (by rw [hchk, if_neg hne, if_pos h])
  · exact h1 false (by rw [hchk, if_neg n1, if_neg n2, if_pos h])
  · exact h2 (by rw [hchk, if_neg n1, if_neg n2, if_neg n3])

/-- Witness of C15 on the corner board: the first step lands on the empty cell
(2,2), neither indirect breaker is present, and a second step follows. -/
theorem C15_witness :
    (corner_board.board_at 8 = S_BLACK ∨ corner_board.board_at 8 = S_WHITE) ∧
    (ladder_catches_log 7 ⟨0⟩ corner_board 15 8).2[0]? = some ⟨true, 2, 2⟩ ∧
    corner_board.board_atxy 2 2 = S_NONE ∧
    (0 + 1 < (ladder_catches_log 7 ⟨0⟩ corner_board 15 8).2.length ∨
      ladder_catches 7 ⟨0⟩ corner_board 15 8 = none) :=
  ⟨by decide, by decide, by decide,
    ((C15_step_on_empty 7 ⟨0⟩ corner_board 15 8 0 ⟨true, 2, 2⟩ (by decide) (by decide)
      (by decide)).2.2 _ _ rfl rfl).2.2.2 (by decide) (by decide) (by decide)⟩

/-- Counterexample to C16: on `support_board` the direction and parity tests
pass (directions (-1, 1), only the cell south of the liberty is a catcher) and
the first step of the simulation is the vertical one, to (3,4). -/
theorem C16_counterexample :
    ladder_xd support_board (support_board.coord_x 24) (support_board.coord_y 24) = -1 ∧
    ladder_yd support_board (support_board.coord_x 24) (support_board.coord_y 24) = 1 ∧
    ladder_catcher support_board 4 3 (support_board.board_at 25) = false ∧
    ladder_catcher support_board 3 2 (support_board.board_at 25) = true ∧
    (ladder_catches_log 7 ⟨0⟩ support_board 24 25).2[0]? = some ⟨false, 3, 4⟩ ∧
    (ladder_catches_log 7 ⟨0⟩ support_board 24 25).2[1]? = some ⟨true, 2, 4⟩ := by
  decide

/-- C16 as amended: the first step of the simulation is horizontal exactly when
the cell (x - dx, y) is a catcher, and vertical otherwise; after it the steps
alternate, a horizontal step advancing x by dx and a vertical one y by dy.  When
the direction and parity tests pass and there is fuel, a first step is taken. -/
theorem C16_steps_alternate (fuel : Nat) (p : playout_policy) (b : board) (coord : coord_t)
    (laddered : group_t) :
    (∀ s, (ladder_catches_log fuel p b coord laddered).2[0]? = some s →
      s.horiz = ladder_catcher b
        (b.coord_x coord - ladder_xd b (b.coord_x coord) (b.coord_y coord)) (b.coord_y coord)
        (b.board_at laddered) ∧
      s = if s.horiz
          then ⟨true, b.coord_x coord + ladder_xd b (b.coord_x coord) (b.coord_y coord),
            b.coord_y coord⟩
          else ⟨false, b.coord_x coord,
            b.coord_y coord + ladder_yd b (b.coord_x coord) (b.coord_y coord)⟩) ∧
    (∀ (i : Nat) (s t : lstep), (ladder_catches_log fuel p b coord laddered).2[i]? = some s →
      (ladder_catches_log fuel p b coord laddered).2[i + 1]? = some t →
      t.horiz = !s.horiz ∧
      t = if s.horiz
          then ⟨false, s.x, s.y + ladder_yd b (b.coord_x coord) (b.coord_y coord)⟩
          else ⟨true, s.x + ladder_xd b (b.coord_x coord) (b.coord_y coord), s.y⟩) ∧
    ((ladder_xd b (b.coord_x coord) (b.coord_y coord) == 0
        || ladder_yd b (b.coord_x coord) (b.coord_y coord) == 0
        || !(xor
          (ladder_catcher b
            (b.coord_x coord - ladder_xd b (b.coord_x coord) (b.coord_y coord)) (b.coord_y coord)
            (b.board_at laddered))
          (ladder_catcher b (b.coord_x coord)
            (b.coord_y coord - ladder_yd b (b.coord_x coord) (b.coord_y coord))
            (b.board_at laddered)))) = false →
      0 < fuel → (ladder_catches_log fuel p b coord laddered).2 ≠ []) := by
  obtain ⟨h0, hs⟩ := ladder_catches_log_alternate fuel p b coord laddered
  refine ⟨fun s hs0 => ?_, fun i s t h1 h2 => ?_, fun hgo hf => ?_⟩
  · have := h0 s hs0
    by_cases hc : ladder_catcher b
        (b.coord_x coord - ladder_xd b (b.coord_x coord) (b.coord_y coord)) (b.coord_y coord)
        (b.board_at laddered) = true
    · rw [if_pos hc] at this
      subst this
      simp [hc]
    · rw [if_neg hc] at this
      subst this
      simp [hc]
  · have := hs i s t h1 h2
    refine ⟨?_, this⟩
    rw [this]
    cases s.horiz <;> simp
  · exact ladder_catches_log_ne_nil fuel p b coord laddered hgo hf

/-- Witness of C16 as amended on the corner board, where the cell (0,2) west of
the liberty is a catcher: the first step is horizontal, the second vertical. -/
theorem C16_witness :
    (ladder_catches_log 7 ⟨0⟩ corner_board 15 8).2[0]? = some ⟨true, 2, 2⟩ ∧
    (ladder_catches_log 7 ⟨0⟩ corner_board 15 8).2[1]? = some ⟨false, 2, 3⟩ ∧
    (lstep.mk false 2 3).horiz = !(lstep.mk true 2 2).horiz :=
  ⟨by decide, by decide,
    ((C16_steps_alternate 7 ⟨0⟩ corner_board 15 8).2.1 0 ⟨true, 2, 2⟩ ⟨false, 2, 3⟩ (by decide)
      (by decide)).1⟩

/-- C17: at a step of `ladder_catches` that lands on a stone of the laddered
colour, the step is the last one with result false whenever the first recorded
liberty of the stone's group is positive, whatever its liberty count, so also
when the count is 1; another step follows (unless the fuel is used up) exactly
when that first recorded liberty is not positive.  Changing the liberty count of
any group does not change the result. -/
theorem C17_friend_decided_by_lib0 (fuel : Nat) (p : playout_policy) (b : board)
    (coord : coord_t) (laddered : group_t) (i : Nat) (s : lstep)
    (hcol : b.board_at laddered = S_BLACK ∨ b.board_at laddered = S_WHITE)
    (hs : (ladder_catches_log fuel p b coord laddered).2[i]? = some s)
    (hfriend : b.board_atxy s.x s.y = b.board_at laddered) :
    (0 < (b.board_group_info (b.group_atxy s.x s.y)).lib 0 →
      (ladder_catches_log fuel p b coord laddered).2.length = i + 1 ∧
        ladder_catches fuel p b coord laddered = some false) ∧
    (¬ 0 < (b.board_group_info (b.group_atxy s.x s.y)).lib 0 →
      i + 1 < (ladder_catches_log fuel p b coord laddered).2.length ∨
        ladder_catches fuel p b coord laddered = none) ∧
    (∀ (g : group_t) (n : Int),
      ladder_catches fuel p (set_libs b g n) coord laddered =
        ladder_catches fuel p b coord laddered) := by
  obtain ⟨h1, h2⟩ := ladder_catches_log_step fuel p b coord laddered i s hs
  have hne : b.board_atxy s.x s.y ≠ S_NONE := by
    rw [hfriend]
    rcases hcol with h | h <;> rw [h] <;> decide
  have hc : ¬ (b.board_atxy s.x s.y = stone_other (b.board_at laddered) ∨
      b.board_atxy s.x s.y = S_OFFBOARD) := by
    rw [hfriend]
    rintro (h | h)
    · exact stone_other_ne _ hcol h.symm
    · rcases hcol with h' | h' <;> rw [h'] at h <;> cases h
  have hchk := step_check_stone b (b.board_at laddered)
    (ladder_xd b (b.coord_x coord) (b.coord_y coord))
    (ladder_yd b (b.coord_x coord) (b.coord_y coord)) s hne hc
  refine ⟨fun hpos => h1 false (by rw [hchk, if_pos hpos]),
    fun hnp => h2 (by rw [hchk, if_neg hnp]), fun g n => ?_⟩
  exact ladder_catches_congr b (set_libs b g n) rfl rfl rfl rfl rfl (set_libs_lib b g n) fuel p
    coord laddered

/-- Witness of C17: on `breaker_board` with the record of the stone at (3,3)
reading one liberty, the step landing on it still returns false. -/
theorem C17_witness :
    ((set_libs breaker_board 24 1).board_at 8 = S_BLACK ∨
      (set_libs breaker_board 24 1).board_at 8 = S_WHITE) ∧
    (ladder_catches_log 7 ⟨0⟩ (set_libs breaker_board 24 1) 15 8).2[2]? = some ⟨true, 3, 3⟩ ∧
    ((set_libs breaker_board 24 1).board_group_info
      ((set_libs breaker_board 24 1).group_atxy 3 3)).libs = 1 ∧
    ladder_catches 7 ⟨0⟩ (set_libs breaker_board 24 1) 15 8 = some false :=
  ⟨by decide, by decide, by decide,
    ((C17_friend_decided_by_lib0 7 ⟨0⟩ (set_libs breaker_board 24 1) 15 8 2 ⟨true, 3, 3⟩
      (by decide) (by decide) (by decide)).1 (by decide)).2⟩

/-- C18: on a board of side `S` (border included) whose border cells are
off-board, for a liberty strictly inside the border, every cell read by
`ladder_catches` (the direction probes, the catcher cells, the cells stepped
into and the two indirect-breaker cells of each step) has both coordinates
within `[0, S - 1]`, for every fuel. -/
theorem C18_reads_in_grid (fuel : Nat) (p : playout_policy) (b : board) (S : Nat)
    (coord : coord_t) (laddered : group_t) (hb : bordered b S) (hc : on_board b S coord) :
    (ladder_catches_reads fuel p b coord laddered).1 = ladder_catches fuel p b coord laddered ∧
    ∀ c ∈ (ladder_catches_reads fuel p b coord laddered).2,
      0 ≤ c.1 ∧ c.1 ≤ (S : Int) - 1 ∧ 0 ≤ c.2 ∧ c.2 ≤ (S : Int) - 1 := by
  refine ⟨ladder_catches_reads_fst fuel p b coord laddered, ?_⟩
  obtain ⟨hx1, hx2, hy1, hy2⟩ := hc
  have hdirs := ladder_dir_reads_in_grid b S (b.coord_x coord) (b.coord_y coord) hx1 hx2 hy1 hy2
  intro c hcm
  change in_grid S c
  simp only [ladder_catches_reads] at hcm
  split at hcm
  · exact hdirs c hcm
  · rename_i hgo
    simp only [Bool.or_eq_true, beq_iff_eq, not_or] at hgo
    obtain ⟨hxd0, hyd0⟩ := hgo
    have hxd : ladder_xd b (b.coord_x coord) (b.coord_y coord) = 1 ∨
        ladder_xd b (b.coord_x coord) (b.coord_y coord) = -1 := by
      rcases ladder_xd_cases b (b.coord_x coord) (b.coord_y coord) with h | h | h
      · exact Or.inl h.1
      · exact Or.inr h.1
      · exact absurd h hxd0
    have hyd : ladder_yd b (b.coord_x coord) (b.coord_y coord) = 1 ∨
        ladder_yd b (b.coord_x coord) (b.coord_y coord) = -1 := by
      rcases ladder_yd_cases b (b.coord_x coord) (b.coord_y coord) with h | h | h
      · exact Or.inl h.1
      · exact Or.inr h.1
      · exact absurd h hyd0
    generalize ladder_xd b (b.coord_x coord) (b.coord_y coord) = xd at hxd hcm
    generalize ladder_yd b (b.coord_x coord) (b.coord_y coord) = yd at hyd hcm
    generalize ladder_xd_reads b (b.coord_x coord) (b.coord_y coord)
      ++ ladder_yd_reads b (b.coord_x coord) (b.coord_y coord) = dirs at hdirs hcm
    generalize b.coord_x coord = x at hx1 hx2 hcm
    generalize b.coord_y coord = y at hy1 hy2 hcm
    have hcat : ∀ c ∈ [(x - xd, y), (x, y - yd), (x - xd, y)], in_grid S c := by
      intro c hc
      simp only [List.mem_cons, List.mem_singleton, List.not_mem_nil, or_false] at hc
      rcases hc with rfl | rfl | rfl <;> (simp only [in_grid]; omega)
    split at hcm
    · simp only [List.mem_append] at hcm
      rcases hcm with h | h
      · exact hdirs c h
      · exact hcat c (by
          simp only [List.mem_cons, List.mem_singleton, List.not_mem_nil, or_false] at h ⊢
          rcases h with h | h
          · exact Or.inl h
          · exact Or.inr (Or.inl h))
    · split at hcm
      · have hh := ladder_check_reads_in_grid b S hb (b.board_at laddered) (x + xd) y xd 0
          (-2 * xd) yd (by omega) (by omega) (by omega) (by omega) (fun _ _ _ _ => by
            simp only [in_grid]; omega)
        cases hhr : ladder_horiz b (b.board_at laddered) xd yd x y with
        | ret r =>
          simp only [hhr, List.mem_append] at hcm
          rcases hcm with h | h | h
          · exact hdirs c h
          · exact hcat c h
          · exact hh c h
        | next =>
          simp only [hhr, List.mem_append] at hcm
          have hhin := ladder_check_next_inside b S hb (b.board_at laddered) (x + xd) y xd 0
            (-2 * xd) yd (by omega) (by omega) (by omega) (by omega) hhr
          rcases hcm with h | h | h | h
          · exact hdirs c h
          · exact hcat c h
          · exact hh c h
          · exact ladder_loop_reads_in_grid b S hb (b.board_at laddered) xd yd hxd hyd fuel
              (x + xd) y hhin.1 hhin.2.1 hy1 hy2 c h
      · simp only [List.mem_append] at hcm
        rcases hcm with h | h | h
        · exact hdirs c h
        · exact hcat c h
        · exact ladder_loop_reads_in_grid b S hb (b.board_at laddered) xd yd hxd hyd fuel x y
            hx1 hx2 hy1 hy2 c h

/-- Witness of C18 on the corner board. -/
theorem C18_witness :
    bordered corner_board 7 ∧ on_board corner_board 7 15 ∧
    ∀ c ∈ (ladder_catches_reads 7 ⟨0⟩ corner_board 15 8).2,
      0 ≤ c.1 ∧ c.1 ≤ ((7 : Nat) : Int) - 1 ∧ 0 ≤ c.2 ∧ c.2 ≤ ((7 : Nat) : Int) - 1 :=
  ⟨corner_board_bordered, corner_board_on_board,
    (C18_reads_in_grid 7 ⟨0⟩ corner_board 7 15 8 corner_board_bordered corner_board_on_board).2⟩

/-- C19: on a board where the laddered group has a colour and the direction and
parity tests pass, `ladder_catches` returns false only if a stone of the
laddered colour is on the cell of a step or on one of its two indirect-breaker
cells.  Consequently, on a board of side `S` with off-board border and a liberty
strictly inside it, if no cell of a step and no indirect-breaker cell of a step
of the run holds the laddered colour, `ladder_catches` returns true, and the
last step has landed on a hostile stone or an off-board cell, or on an empty
cell with a hostile stone ahead. -/
theorem C19_false_only_on_friend (p : playout_policy) (b : board) (coord : coord_t)
    (laddered : group_t)
    (hcol : b.board_at laddered = S_BLACK ∨ b.board_at laddered = S_WHITE)
    (hgo : (ladder_xd b (b.coord_x coord) (b.coord_y coord) == 0
      || ladder_yd b (b.coord_x coord) (b.coord_y coord) == 0
      || !(xor
        (ladder_catcher b
          (b.coord_x coord - ladder_xd b (b.coord_x coord) (b.coord_y coord)) (b.coord_y coord)
          (b.board_at laddered))
        (ladder_catcher b (b.coord_x coord)
          (b.coord_y coord - ladder_yd b (b.coord_x coord) (b.coord_y coord))
          (b.board_at laddered)))) = false) :
    (∀ fuel, ladder_catches fuel p b coord laddered = some false →
      ∃ s ∈ (ladder_catches_log fuel p b coord laddered).2,
        b.board_atxy s.x s.y = b.board_at laddered ∨
        b.board_atxy
            (step_ahead (ladder_xd b (b.coord_x coord) (b.coord_y coord))
              (ladder_yd b (b.coord_x coord) (b.coord_y coord)) s).1
            (step_ahead (ladder_xd b (b.coord_x coord) (b.coord_y coord))
              (ladder_yd b (b.coord_x coord) (b.coord_y coord)) s).2 = b.board_at laddered ∨
        b.board_atxy
            (step_behind (ladder_xd b (b.coord_x coord) (b.coord_y coord))
              (ladder_yd b (b.coord_x coord) (b.coord_y coord)) s).1
            (step_behind (ladder_xd b (b.coord_x coord) (b.coord_y coord))
              (ladder_yd b (b.coord_x coord) (b.coord_y coord)) s).2 = b.board_at laddered) ∧
    (∀ S : Nat, bordered b S → on_board b S coord →
      (∀ s ∈ (ladder_catches_log (S - 2) p b coord laddered).2,
        b.board_atxy s.x s.y ≠ b.board_at laddered ∧
        b.board_atxy
            (step_ahead (ladder_xd b (b.coord_x coord) (b.coord_y coord))
              (ladder_yd b (b.coord_x coord) (b.coord_y coord)) s).1
            (step_ahead (ladder_xd b (b.coord_x coord) (b.coord_y coord))
              (ladder_yd b (b.coord_x coord) (b.coord_y coord)) s).2 ≠ b.board_at laddered ∧
        b.board_atxy
            (step_behind (ladder_xd b (b.coord_x coord) (b.coord_y coord))
              (ladder_yd b (b.coord_x coord) (b.coord_y coord)) s).1
            (step_behind (ladder_xd b (b.coord_x coord) (b.coord_y coord))
              (ladder_yd b (b.coord_x coord) (b.coord_y coord)) s).2 ≠ b.board_at laddered) →
      ∀ fuel, S - 2 ≤ fuel →
        ladder_catches fuel p b coord laddered = some true ∧
        ∃ s, (ladder_catches_log fuel p b coord laddered).2.getLast? = some s ∧
          ((b.board_atxy s.x s.y = stone_other (b.board_at laddered) ∨
              b.board_atxy s.x s.y = S_OFFBOARD) ∨
            (b.board_atxy s.x s.y = S_NONE ∧
              b.board_atxy
                (step_ahead (ladder_xd b (b.coord_x coord) (b.coord_y coord))
                  (ladder_yd b (b.coord_x coord) (b.coord_y coord)) s).1
                (step_ahead (ladder_xd b (b.coord_x coord) (b.coord_y coord))
                  (ladder_yd b (b.coord_x coord) (b.coord_y coord)) s).2 =
                stone_other (b.board_at laddered)))) := by
  refine ⟨fun fuel hr => ladder_catches_false_found fuel p b coord laddered hcol hgo hr, ?_⟩
  intro S hb hc hclean fuel hf
  obtain ⟨r, tr, hrun, -⟩ := ladder_catches_log_bordered b S hb p coord laddered hc
  have hres : ∀ f, S - 2 ≤ f → ladder_catches f p b coord laddered = some r := by
    intro f hf'
    rw [← ladder_catches_log_fst, hrun f hf']
  have hr : r = true := by
    cases r with
    | true => rfl
    | false =>
      obtain ⟨s, hs, hfound⟩ := ladder_catches_false_found (S - 2) p b coord laddered hcol hgo
        (hres (S - 2) (Nat.le_refl _))
      obtain ⟨n1, n2, n3⟩ := hclean s hs
      rcases hfound with h | h | h
      · exact absurd h n1
      · exact absurd h n2
      · exact absurd h n3
  subst hr
  refine ⟨hres fuel hf, ?_⟩
  have hne := ladder_catches_log_ne_nil_of_some fuel p b coord laddered true hgo (hres fuel hf)
  obtain ⟨s, hs, hchk⟩ := ladder_catches_log_last fuel p b coord laddered true hne (hres fuel hf)
  refine ⟨s, ?_, step_check_ret_true b _ _ _ s hchk⟩
  rw [List.getLast?_eq_getElem?]
  exact hs

/-- Witness of C19 on the corner board: no stone of the laddered colour is met
and the reader returns true. -/
theorem C19_witness :
    (corner_board.board_at 8 = S_BLACK ∨ corner_board.board_at 8 = S_WHITE) ∧
    bordered corner_board 7 ∧ on_board corner_board 7 15 ∧
    ladder_catches 7 ⟨0⟩ corner_board 15 8 = some true :=
  ⟨by decide, corner_board_bordered, corner_board_on_board,
    ((C19_false_only_on_friend ⟨0⟩ corner_board 15 8 (by decide) (by decide)).2 7
      corner_board_bordered corner_board_on_board (by decide) 7 (by decide)).1⟩

/-- C20: for two offsets below `clen` (so `clen > 0`), the sweep returns pass with
the one offset if and only if it does with the other, namely exactly when the
check of every group of the list is pass; a result other than pass is the check
of some group of the list; and when every check returns, the sweep returns with
either offset, and returns a coordinate other than pass with the one if and only
if it does with the other. -/
theorem C20_offset_does_not_decide (fuel : Nat) (p : playout_policy) (b : board) (g1 g2 : Nat)
    (h1 : g1 < b.clen) (h2 : g2 < b.clen) :
    (global_atari_check fuel p b g1 = some pass ↔ global_atari_check fuel p b g2 = some pass) ∧
    (global_atari_check fuel p b g1 = some pass ↔
      ∀ i, i < b.clen → group_atari_check fuel p b (b.c i) = some pass) ∧
    (∀ r, global_atari_check fuel p b g1 = some r → r ≠ pass →
      ∃ g, g < b.clen ∧ group_atari_check fuel p b (b.c g) = some r) ∧
    ((∀ i, i < b.clen → (group_atari_check fuel p b (b.c i)).isSome = true) →
      (global_atari_check fuel p b g1).isSome = true ∧
      (global_atari_check fuel p b g2).isSome = true ∧
      ((∃ r, r ≠ pass ∧ global_atari_check fuel p b g1 = some r) ↔
        (∃ r, r ≠ pass ∧ global_atari_check fuel p b g2 = some r))) := by
  have e1 := global_atari_check_pass_iff fuel p b g1 h1
  have e2 := global_atari_check_pass_iff fuel p b g2 h2
  refine ⟨e1.trans e2.symm, e1, fun r hr hne => global_atari_check_some fuel p b g1 h1 r hr hne,
    fun H => ?_⟩
  have s1 := global_atari_check_returns fuel p b g1 h1 H
  have s2 := global_atari_check_returns fuel p b g2 h2 H
  refine ⟨s1, s2, ?_⟩
  have key : ∀ g, (global_atari_check fuel p b g).isSome = true →
      ((∃ r, r ≠ pass ∧ global_atari_check fuel p b g = some r) ↔
        ¬ global_atari_check fuel p b g = some pass) := by
    intro g hs
    obtain ⟨v, hv⟩ := Option.isSome_iff_exists.mp hs
    rw [hv]
    constructor
    · rintro ⟨r, hr, hrv⟩ hp
      rw [hp] at hrv
      exact hr (Option.some.inj hrv).symm
    · intro hnp
      exact ⟨v, fun hvp => hnp (by rw [hvp]), rfl⟩
  rw [key g1 s1, key g2 s2, e1, e2]

/-- Witness of C20 on `twin_board`: with offset 0 as with offset 1 the sweep
returns a saving liberty. -/
theorem C20_witness :
    0 < twin_board.clen ∧ 1 < twin_board.clen ∧
    ((∃ r, r ≠ pass ∧ global_atari_check 0 ⟨0⟩ twin_board 0 = some r) ↔
      (∃ r, r ≠ pass ∧ global_atari_check 0 ⟨0⟩ twin_board 1 = some r)) :=
  ⟨by decide, by decide,
    ((C20_offset_does_not_decide 0 ⟨0⟩ twin_board 0 1 (by decide) (by decide)).2.2.2
      (by decide)).2.2⟩

end Moggy
